import Mathlib

/-!
# Trie_Project: a shallow embedding of `trie.h` / `trie.cpp`

The C++ program keeps a prefix tree whose nodes own 26 child pointers.  Because
every node is owned by exactly one slot (`new TrieNode()` is only ever stored in
the slot that was found empty), the heap reachable from `root` is a tree, and a
pointer value `TrieNode*` is modelled by the tree hanging below it:

* `TrieNode.null` is `nullptr`;
* `TrieNode.node children isEndOfWord word` is a pointer to a live node.

A `std::string` is a `List Char`.  A pointer to a slot (`TrieNode**`, as used by
`deleteWord`) is the list of child indices leading from `&root` to that slot.
Text written to `std::cout` is a list of lines.

Dereferencing `nullptr` is undefined in the source.  In the model a read through
`null` yields `null`, `false` or the empty string and a write through `null`
does nothing; no statement below rests on this, because the root exists in
every state they speak about (`build_root_isNull`, `runOps_root_isNull`).

The counters of `dfs` are C++ `int`s, taken as 32 bits wide.  They are modelled
by integers in `INT_MIN .. INT_MAX` (`isInt`), and `cnt[i]--`, `cnt[i]++` give
the two's-complement result (`wrapInt`).  Signed overflow is undefined in C++;
it can only happen here when an entry is `INT_MIN` on entry, and never with
non-negative counts.
-/

namespace TrieProject

/-- The macro `ALPHABET_SIZE` of `trie.h`. -/
abbrev ALPHABET_SIZE : Nat := 26

/-- A value of type `TrieNode*`: either `nullptr` or an owned node with its
`children` array, its `isEndOfWord` flag and its `word` string. -/
inductive TrieNode where
  | null : TrieNode
  | node (children : Fin ALPHABET_SIZE → TrieNode) (isEndOfWord : Bool)
      (word : List Char) : TrieNode

/-- The struct `Trie`: it holds the `root` pointer. -/
structure Trie where
  root : TrieNode

/-- A word is over 'a'..'z'. -/
def lowercase (w : List Char) : Prop :=
  ∀ c ∈ w, 'a'.toNat ≤ c.toNat ∧ c.toNat ≤ 'z'.toNat

instance (w : List Char) : Decidable (lowercase w) := by
  unfold lowercase; infer_instance

/-- The expression `c - 'a'` used as an array index.  For 'a'..'z' it is the
letter number 0..25.  For any other character the source indexes outside the
26-slot array (undefined behaviour); every statement below is about words over
'a'..'z', where the reduction modulo 26 is the identity. -/
def idx (c : Char) : Fin ALPHABET_SIZE :=
  ⟨(c.toNat - 'a'.toNat) % ALPHABET_SIZE, Nat.mod_lt _ (by decide)⟩

/-- The index sequence `c - 'a'` of a whole key. -/
def path (key : List Char) : List (Fin ALPHABET_SIZE) := key.map idx

namespace TrieNode

/-- The test `p == nullptr`. -/
def isNull : TrieNode → Bool
  | null => true
  | node _ _ _ => false

/-- The read `p->children[i]` (a null `p` has no children to read). -/
def child : TrieNode → Fin ALPHABET_SIZE → TrieNode
  | null, _ => null
  | node ch _ _, i => ch i

/-- The read `p->isEndOfWord`. -/
def isEnd : TrieNode → Bool
  | null => false
  | node _ e _ => e

/-- The read `p->word`. -/
def wordOf : TrieNode → List Char
  | null => []
  | node _ _ w => w

/-- The write `p->isEndOfWord = false`. -/
def clearEnd : TrieNode → TrieNode
  | null => null
  | node ch _ w => node ch false w

/-- The value in the slot reached from this pointer by following the child
indices of `p`. -/
def getAt : TrieNode → List (Fin ALPHABET_SIZE) → TrieNode
  | n, [] => n
  | n, i :: p => getAt (n.child i) p

/-- The tree after the slot reached by `p` has been overwritten with `v`. -/
def setAt : TrieNode → List (Fin ALPHABET_SIZE) → TrieNode → TrieNode
  | _, [], v => v
  | null, _ :: _, _ => null
  | node ch e w, i :: p, v => node (Function.update ch i (setAt (ch i) p v)) e w

end TrieNode

open TrieNode

/-- The expression `new TrieNode()`: value-initialisation zeroes the `children`
array, and the member initialisers give `isEndOfWord = false`, `word = ""`. -/
def newTrieNode : TrieNode := node (fun _ => null) false []

/-- The method `Trie::init`: `root` is replaced by a new node whose children are
all set to `nullptr`. -/
def Trie.init (_t : Trie) : Trie := ⟨newTrieNode⟩

/-- A `Trie` object right after its declaration (`root = nullptr`). -/
def Trie.declared : Trie := ⟨null⟩

/-- The loop of `Trie::insert` from the node `cur` on, with the characters still
to be consumed; `word` is the whole argument, stored at the final node. -/
def insertFrom (word : List Char) : List Char → TrieNode → TrieNode
  | _, null => null
  | [], node ch _ _ => node ch true word
  | c :: rest, node ch e w =>
    let index := idx c
    let next := if (ch index).isNull then newTrieNode else ch index
    node (Function.update ch index (insertFrom word rest next)) e w

/-- The method `Trie::insert`. -/
def Trie.insert (t : Trie) (word : List Char) : Trie :=
  ⟨insertFrom word word t.root⟩

/-- The loop of `Trie::search` from the node `cur` on. -/
def searchFrom : List Char → TrieNode → Bool
  | [], cur => cur.isEnd == true
  | c :: rest, cur =>
    let index := idx c
    if (cur.child index).isNull then false
    else searchFrom rest (cur.child index)

/-- The method `Trie::search`. -/
def Trie.search (t : Trie) (key : List Char) : Bool :=
  searchFrom key t.root

/-- The method `Trie::dfs_print`; the result is the list of lines written. -/
def dfs_print : TrieNode → List (List Char)
  | null => []
  | node ch e w =>
    (if e then [w] else []) ++
      (List.finRange ALPHABET_SIZE).foldl (fun out i => out ++ dfs_print (ch i)) []

/-- The loop of `Trie::findPrefix` from the node `cur` on; `pre` is the whole
argument, used in the message.  The result is the list of lines written. -/
def findPrefixFrom (pre : List Char) : List Char → TrieNode → List (List Char)
  | [], cur => dfs_print cur
  | c :: rest, cur =>
    let index := idx c
    if (cur.child index).isNull then ["Not found any key has prefix ".toList ++ pre]
    else findPrefixFrom pre rest (cur.child index)

/-- The method `Trie::findPrefix`. -/
def Trie.findPrefix (t : Trie) (pre : List Char) : List (List Char) :=
  findPrefixFrom pre pre t.root

/-- The loop of `Trie::longestPrefix` from the node `cur` on; the result is the
final value of the local string `prefix`, given its value so far. -/
def longestPrefixFrom : List Char → TrieNode → List Char → List Char
  | [], _, acc => acc
  | c :: rest, cur, acc =>
    let index := idx c
    if (cur.child index).isNull then acc
    else longestPrefixFrom rest (cur.child index) (acc ++ [c])

/-- The method `Trie::longestPrefix`: the one line it writes. -/
def Trie.longestPrefix (t : Trie) (key : List Char) : List (List Char) :=
  ["The longest prefix of ".toList ++ key ++ " is ".toList ++
    longestPrefixFrom key t.root []]

/-- The method `Trie::countChild`. -/
def countChild (n : TrieNode) : Nat :=
  (List.finRange ALPHABET_SIZE).foldl
    (fun count i => if (n.child i).isNull then count else count + 1) 0

/-- The method `Trie::clear`: every node below the argument is freed, then the
node itself, and the reference is set to `nullptr`. -/
def clear (_root : TrieNode) : TrieNode := null

/-- The loop of `Trie::deleteWord`.  `cur` and `parent` are the two slot
pointers, given as paths from `&root` (`parent = none` is `nullptr`).  The
result is `none` when a child is missing (the early `return`), otherwise the
final values of `cur` and `parent`. -/
def deleteWalk (root : TrieNode) :
    List Char → List (Fin ALPHABET_SIZE) → Option (List (Fin ALPHABET_SIZE)) →
      Option (List (Fin ALPHABET_SIZE) × Option (List (Fin ALPHABET_SIZE)))
  | [], cur, parent => some (cur, parent)
  | c :: rest, cur, parent =>
    let index := idx c
    if ((root.getAt cur).child index).isNull then none
    else
      let parent1 :=
        if countChild (root.getAt cur) > 1 ∧
            countChild ((root.getAt cur).child index) = 1 then
          some (cur ++ [index])
        else parent
      deleteWalk root rest (cur ++ [index]) parent1

/-- The method `Trie::deleteWord`: the trie afterwards and the lines written. -/
def Trie.deleteWord (t : Trie) (key : List Char) : Trie × List (List Char) :=
  match deleteWalk t.root key [] none with
  | none => (t, ["Not found ".toList ++ key])
  | some (cur, parent) =>
    if countChild (t.root.getAt cur) > 0 then
      (⟨t.root.setAt cur (t.root.getAt cur).clearEnd⟩, [])
    else
      let root1 := t.root.setAt cur null
      match parent with
      | none => (⟨root1⟩, [])
      | some p =>
        if (root1.getAt p).isNull then (⟨root1⟩, [])
        else (⟨root1.setAt p (clear (root1.getAt p))⟩, [])

/-- The value a 32-bit `int` holds after an arithmetic step whose exact result
is `x`: the representative of `x` modulo 2^32 in `INT_MIN .. INT_MAX`. -/
def wrapInt (x : Int) : Int := (x + 2147483648) % 4294967296 - 2147483648

/-- The value `x` is representable as a 32-bit `int`. -/
def isInt (x : Int) : Prop := -2147483648 ≤ x ∧ x ≤ 2147483647

instance (x : Int) : Decidable (isInt x) := by
  unfold isInt; infer_instance

/-- The method `Trie::dfs`.  The two reference parameters `cnt` and `res` are
passed in and returned. -/
def dfs : TrieNode → (Fin ALPHABET_SIZE → Int) → Fin ALPHABET_SIZE → List (List Char) →
    (Fin ALPHABET_SIZE → Int) × List (List Char)
  | null, cnt, _, res => (cnt, res)
  | node ch e w, cnt, index, res =>
    if cnt index < 0 then (cnt, res)
    else
      let res1 := if e then (if w.length ≥ 3 then res ++ [w] else res) else res
      (List.finRange ALPHABET_SIZE).foldl
        (fun st i =>
          if (ch i).isNull then st
          else
            let cnt1 := Function.update st.1 i (wrapInt (st.1 i - 1))
            let st2 := dfs (ch i) cnt1 i st.2
            (Function.update st2.1 i (wrapInt (st2.1 i + 1)), st2.2))
        (cnt, res1)

/-- The letter counting of `Trie::solve`: `cnt[c - 'a']++` for every character
of the input line that is not a space, starting from 26 zeros. -/
def letterCounts (s : List Char) : Fin ALPHABET_SIZE → Int :=
  s.foldl
    (fun cnt c =>
      if c ≠ ' ' then Function.update cnt (idx c) (wrapInt (cnt (idx c) + 1)) else cnt)
    (fun _ => 0)

/-- The enumeration step of `Trie::solve`: `dfs(root, cnt, 0, res)` with an
empty `res`; the result is the final `res`. -/
def Trie.solve (t : Trie) (s : List Char) : List (List Char) :=
  (dfs t.root (letterCounts s) 0 []).2

/-- The trie obtained from a freshly initialised one by inserting the words of
`ws` in order (what `buildTreeFromList` does with the tokens of the file). -/
def build (ws : List (List Char)) : Trie :=
  ws.foldl Trie.insert (Trie.init Trie.declared)

/-- One mutating call on the trie. -/
inductive Op where
  | insert (word : List Char)
  | deleteWord (key : List Char)

/-- The effect of one call on the trie. -/
def Op.run (t : Trie) : Op → Trie
  | .insert w => t.insert w
  | .deleteWord k => (t.deleteWord k).1

/-- The argument of a call. -/
def Op.arg : Op → List Char
  | .insert w => w
  | .deleteWord k => k

/-- The trie after `init()` followed by the calls of `ops` in order. -/
def runOps (ops : List Op) : Trie :=
  ops.foldl Op.run (Trie.init Trie.declared)

/-- Every call of `ops` has a non-empty argument over 'a'..'z'. -/
def goodOps (ops : List Op) : Prop :=
  ∀ o ∈ ops, o.arg ≠ [] ∧ lowercase o.arg

instance (ops : List Op) : Decidable (goodOps ops) := by
  unfold goodOps; infer_instance

/-- The words one call of `dfs` appends to `res`, as a function of the node,
of the budget `cnt` on entry and of the inbound letter `index`. -/
def dfsOut : TrieNode → (Fin ALPHABET_SIZE → Int) → Fin ALPHABET_SIZE → List (List Char)
  | null, _, _ => []
  | node ch e w, cnt, index =>
    if cnt index < 0 then []
    else
      (if e = true ∧ 3 ≤ w.length then [w] else []) ++
        (List.finRange ALPHABET_SIZE).flatMap
          (fun i => dfsOut (ch i) (Function.update cnt i (wrapInt (cnt i - 1))) i)

/-- The guards `cnt[index] < 0` all fail along the descent through the child
indices `q`, starting with budget `cnt` and inbound letter `index`. -/
def fits : (Fin ALPHABET_SIZE → Int) → Fin ALPHABET_SIZE → List (Fin ALPHABET_SIZE) → Prop
  | cnt, index, [] => 0 ≤ cnt index
  | cnt, index, i :: q =>
    0 ≤ cnt index ∧ fits (Function.update cnt i (wrapInt (cnt i - 1))) i q

/-- Every terminal node below `n` carries a word over 'a'..'z' whose index
sequence is the path from the root to that node, `n` itself being at `pre`. -/
def labeled (pre : List (Fin ALPHABET_SIZE)) (n : TrieNode) : Prop :=
  ∀ q, (n.getAt q).isEnd = true →
    lowercase (n.getAt q).wordOf ∧ path (n.getAt q).wordOf = pre ++ q

/-- The character with letter number `i`: 'a' for 0 up to 'z' for 25. -/
def letter (i : Fin ALPHABET_SIZE) : Char := Char.ofNat (i.val + 'a'.toNat)

/-- Some node at or below the argument is terminal. -/
def anyEnd : TrieNode → Bool
  | null => false
  | node ch e _ => e || (List.finRange ALPHABET_SIZE).any (fun i => anyEnd (ch i))

/-- The number of live nodes reachable from a pointer (the pointed node and
everything below it). -/
def size : TrieNode → Nat
  | null => 0
  | node ch _ _ => 1 + ((List.finRange ALPHABET_SIZE).map (fun i => size (ch i))).sum

/-- The node at depth `k` on the path `pk` is not the root, its parent has more
than one child and it has exactly one child itself. -/
def chainStart (root : TrieNode) (pk : List (Fin ALPHABET_SIZE)) (k : Nat) : Prop :=
  1 ≤ k ∧ k ≤ pk.length ∧ countChild (root.getAt (pk.take (k - 1))) > 1 ∧
    countChild (root.getAt (pk.take k)) = 1

instance (root : TrieNode) (pk : List (Fin ALPHABET_SIZE)) (k : Nat) :
    Decidable (chainStart root pk k) := by
  unfold chainStart; infer_instance

/-- The tree below `new` is the tree below `old` with everything in slot `p`
removed and nothing else changed: the slots at or below `p` are empty, and
every other slot has the occupancy, flag and word it had. -/
def removedAt (old new : TrieNode) (p : List (Fin ALPHABET_SIZE)) : Prop :=
  ∀ q, (p <+: q → (new.getAt q).isNull = true) ∧
    (¬ p <+: q → (new.getAt q).isNull = (old.getAt q).isNull ∧
      (new.getAt q).isEnd = (old.getAt q).isEnd ∧
      (new.getAt q).wordOf = (old.getAt q).wordOf)

/-! ## Letters and paths -/

theorem idx_val {c : Char} (h : 'a'.toNat ≤ c.toNat ∧ c.toNat ≤ 'z'.toNat) :
    (idx c).val = c.toNat - 97 := by
  have h1 : 'a'.toNat = 97 := by decide
  have h2 : 'z'.toNat = 122 := by decide
  rw [h1, h2] at h
  show (c.toNat - 'a'.toNat) % 26 = c.toNat - 97
  rw [h1]
  omega

theorem char_eq_of_toNat_eq {c d : Char} (h : c.toNat = d.toNat) : c = d := by
  rw [← Char.ofNat_toNat c, ← Char.ofNat_toNat d, h]

theorem idx_inj {c d : Char} (hc : 'a'.toNat ≤ c.toNat ∧ c.toNat ≤ 'z'.toNat)
    (hd : 'a'.toNat ≤ d.toNat ∧ d.toNat ≤ 'z'.toNat) (h : idx c = idx d) : c = d := by
  have h3 : (idx c).val = (idx d).val := by rw [h]
  rw [idx_val hc, idx_val hd] at h3
  have h1 : 'a'.toNat = 97 := by decide
  rw [h1] at hc hd
  exact char_eq_of_toNat_eq (by omega)

theorem idx_lt_iff {c d : Char} (hc : 'a'.toNat ≤ c.toNat ∧ c.toNat ≤ 'z'.toNat)
    (hd : 'a'.toNat ≤ d.toNat ∧ d.toNat ≤ 'z'.toNat) :
    idx c < idx d ↔ c.toNat < d.toNat := by
  have h1 : 'a'.toNat = 97 := by decide
  rw [Fin.lt_def, idx_val hc, idx_val hd]
  rw [h1] at hc hd
  omega

theorem lowercase_nil : lowercase [] := by
  intro c hc; cases hc

theorem lowercase_cons {c : Char} {w : List Char} :
    lowercase (c :: w) ↔ ('a'.toNat ≤ c.toNat ∧ c.toNat ≤ 'z'.toNat) ∧ lowercase w := by
  unfold lowercase
  simp

theorem path_inj : ∀ {u v : List Char}, lowercase u → lowercase v → path u = path v → u = v
  | [], [], _, _, _ => rfl
  | [], _ :: _, _, _, h => by simp [path] at h
  | _ :: _, [], _, _, h => by simp [path] at h
  | c :: u, d :: v, hu, hv, h => by
    rw [lowercase_cons] at hu hv
    simp only [path, List.map_cons, List.cons.injEq] at h
    rw [idx_inj hu.1 hv.1 h.1, path_inj hu.2 hv.2 h.2]

/-! ## Reading slots -/

@[simp] theorem getAt_null (p : List (Fin ALPHABET_SIZE)) : null.getAt p = null := by
  induction p with
  | nil => rfl
  | cons i p ih => simpa [getAt, child] using ih

theorem getAt_append (n : TrieNode) (p q : List (Fin ALPHABET_SIZE)) :
    n.getAt (p ++ q) = (n.getAt p).getAt q := by
  induction p generalizing n with
  | nil => rfl
  | cons i p ih => simp [getAt, ih]

theorem getAt_snoc (n : TrieNode) (p : List (Fin ALPHABET_SIZE)) (i : Fin ALPHABET_SIZE) :
    n.getAt (p ++ [i]) = (n.getAt p).child i := by
  rw [getAt_append]; rfl

theorem isNull_eq_true_iff {n : TrieNode} : n.isNull = true ↔ n = null := by
  cases n <;> simp [isNull]

theorem getAt_newTrieNode_isEnd (p : List (Fin ALPHABET_SIZE)) :
    (newTrieNode.getAt p).isEnd = false := by
  cases p with
  | nil => rfl
  | cons i p => simp [getAt, newTrieNode, child, isEnd]

theorem getAt_newTrieNode_wordOf (p : List (Fin ALPHABET_SIZE)) :
    (newTrieNode.getAt p).wordOf = [] := by
  cases p with
  | nil => rfl
  | cons i p => simp [getAt, newTrieNode, child, wordOf]

/-- The method `search` reads the flag of the node at the end of the key's path. -/
theorem searchFrom_eq (key : List Char) (cur : TrieNode) :
    searchFrom key cur = (cur.getAt (path key)).isEnd := by
  induction key generalizing cur with
  | nil => simp [searchFrom, path, getAt]
  | cons c rest ih =>
    simp only [searchFrom, path, List.map_cons, getAt]
    by_cases h : (cur.child (idx c)).isNull = true
    · rw [if_pos h, isNull_eq_true_iff.mp h]; simp [isEnd]
    · rw [if_neg h]; exact ih _

/-! ## Insertion -/

theorem insertFrom_isNull (word w : List Char) (n : TrieNode) :
    (insertFrom word w n).isNull = n.isNull := by
  cases n with
  | null => cases w <;> rfl
  | node ch e wd => cases w <;> rfl

theorem insertFrom_isEnd (word : List Char) :
    ∀ (w : List Char) (n : TrieNode) (q : List (Fin ALPHABET_SIZE)), n.isNull = false →
      ((insertFrom word w n).getAt q).isEnd = (decide (q = path w) || (n.getAt q).isEnd) := by
  intro w
  induction w with
  | nil =>
    intro n q hn
    cases n with
    | null => simp [isNull] at hn
    | node ch e wd =>
      cases q with
      | nil => simp [insertFrom, getAt, isEnd, path]
      | cons i q => simp [insertFrom, getAt, child, path]
  | cons c rest ih =>
    intro n q hn
    cases n with
    | null => simp [isNull] at hn
    | node ch e wd =>
      cases q with
      | nil => simp [insertFrom, getAt, isEnd, path]
      | cons i q =>
        simp only [insertFrom, getAt, child, path, List.map_cons, List.cons.injEq]
        by_cases hi : i = idx c
        · subst hi
          rw [Function.update_same]
          by_cases hc : (ch (idx c)).isNull = true
          · rw [if_pos hc, ih newTrieNode _ rfl, getAt_newTrieNode_isEnd, isNull_eq_true_iff.mp hc]
            simp [isEnd, path]
          · rw [if_neg hc, ih _ _ (by simpa using hc)]
            simp [path]
        · rw [Function.update_noteq hi]
          simp [hi]

theorem insertFrom_wordOf (word : List Char) :
    ∀ (w : List Char) (n : TrieNode) (q : List (Fin ALPHABET_SIZE)), n.isNull = false →
      ((insertFrom word w n).getAt q).wordOf =
        if q = path w then word else (n.getAt q).wordOf := by
  intro w
  induction w with
  | nil =>
    intro n q hn
    cases n with
    | null => simp [isNull] at hn
    | node ch e wd =>
      cases q with
      | nil => simp [insertFrom, getAt, wordOf, path]
      | cons i q => simp [insertFrom, getAt, child, path]
  | cons c rest ih =>
    intro n q hn
    cases n with
    | null => simp [isNull] at hn
    | node ch e wd =>
      cases q with
      | nil => simp [insertFrom, getAt, wordOf, path]
      | cons i q =>
        simp only [insertFrom, getAt, child, path, List.map_cons, List.cons.injEq]
        by_cases hi : i = idx c
        · subst hi
          rw [Function.update_same]
          by_cases hc : (ch (idx c)).isNull = true
          · rw [if_pos hc, ih newTrieNode _ rfl, getAt_newTrieNode_wordOf, isNull_eq_true_iff.mp hc]
            simp [wordOf, path]
          · rw [if_neg hc, ih _ _ (by simpa using hc)]
            simp [path]
        · rw [Function.update_noteq hi]
          simp [hi]

theorem build_append (ws : List (List Char)) (w : List Char) :
    build (ws ++ [w]) = (build ws).insert w := by
  simp [build, List.foldl_append]

theorem build_root_isNull (ws : List (List Char)) : (build ws).root.isNull = false := by
  induction ws using List.reverseRecOn with
  | nil => rfl
  | append_singleton ws w ih =>
    rw [build_append]
    show (insertFrom w w (build ws).root).isNull = false
    rw [insertFrom_isNull, ih]

/-- In a trie built by insertions, the terminal nodes are exactly the ends of
the paths of the inserted words. -/
theorem build_isEnd (ws : List (List Char)) (q : List (Fin ALPHABET_SIZE)) :
    ((build ws).root.getAt q).isEnd = true ↔ ∃ w ∈ ws, path w = q := by
  induction ws using List.reverseRecOn with
  | nil =>
    simp [build, Trie.init, getAt_newTrieNode_isEnd]
  | append_singleton ws w ih =>
    rw [build_append]
    show ((insertFrom w w (build ws).root).getAt q).isEnd = true ↔ _
    rw [insertFrom_isEnd w w _ q (build_root_isNull ws)]
    simp only [Bool.or_eq_true, decide_eq_true_eq, ih, List.mem_append, List.mem_singleton]
    constructor
    · rintro (h | ⟨v, hv, hq⟩)
      · exact ⟨w, Or.inr rfl, h.symm⟩
      · exact ⟨v, Or.inl hv, hq⟩
    · rintro ⟨v, hv | hv, hq⟩
      · exact Or.inr ⟨v, hv, hq⟩
      · subst hv; exact Or.inl hq.symm

/-! ## Writing slots -/

theorem setAt_isNull (n v : TrieNode) (p : List (Fin ALPHABET_SIZE))
    (hn : n.isNull = false) (hp : p ≠ []) : (n.setAt p v).isNull = false := by
  cases n with
  | null => simp [isNull] at hn
  | node ch e w =>
    cases p with
    | nil => exact absurd rfl hp
    | cons i p => rfl

theorem getAt_setAt_null_append (n : TrieNode) (p s : List (Fin ALPHABET_SIZE)) :
    (n.setAt p null).getAt (p ++ s) = null := by
  induction p generalizing n with
  | nil => simp [setAt]
  | cons i p ih =>
    cases n with
    | null => simp [setAt]
    | node ch e w => simpa [setAt, getAt, child] using ih (ch i)

/-- Clearing the flag of the node in slot `p` changes that flag and nothing
else: the same slots are occupied, every node keeps its `word`, and every
other node keeps its flag. -/
theorem getAt_setAt_clearEnd (n : TrieNode) (p q : List (Fin ALPHABET_SIZE)) :
    ((n.setAt p (n.getAt p).clearEnd).getAt q).isNull = (n.getAt q).isNull ∧
    ((n.setAt p (n.getAt p).clearEnd).getAt q).wordOf = (n.getAt q).wordOf ∧
    ((n.setAt p (n.getAt p).clearEnd).getAt q).isEnd =
      (if q = p then false else (n.getAt q).isEnd) := by
  induction p generalizing n q with
  | nil =>
    cases n with
    | null => simp [setAt, getAt, clearEnd, isEnd]
    | node ch e w =>
      cases q with
      | nil => simp [setAt, getAt, clearEnd, isEnd, isNull, wordOf]
      | cons j q => simp [setAt, getAt, clearEnd, child]
  | cons i p ih =>
    cases n with
    | null => simp [setAt, isEnd]
    | node ch e w =>
      cases q with
      | nil => simp [setAt, getAt, isEnd, isNull, wordOf]
      | cons j q =>
        simp only [setAt, getAt, child, List.cons.injEq]
        by_cases hj : j = i
        · subst hj
          rw [Function.update_same]
          simpa using ih (ch j) q
        · rw [Function.update_noteq hj]
          simp [hj]

/-! ## Counting children -/

theorem foldl_count (f : Fin ALPHABET_SIZE → Bool) (l : List (Fin ALPHABET_SIZE)) (k : Nat) :
    l.foldl (fun count i => if f i then count else count + 1) k =
      k + l.countP (fun i => !f i) := by
  induction l generalizing k with
  | nil => simp
  | cons a l ih =>
    rw [List.foldl_cons, ih, List.countP_cons]
    cases f a
    · simp; omega
    · simp

theorem countChild_eq (n : TrieNode) :
    countChild n = (List.finRange ALPHABET_SIZE).countP (fun i => !(n.child i).isNull) := by
  unfold countChild
  rw [foldl_count (fun i => (n.child i).isNull)]
  simp

theorem countChild_pos {n : TrieNode} :
    countChild n > 0 ↔ ∃ i, (n.child i).isNull = false := by
  rw [countChild_eq, gt_iff_lt, List.countP_pos_iff]
  simp [List.mem_finRange]

/-! ## The walk of `deleteWord` -/

/-- When the whole path of `key` exists below `cur`, the loop runs to its end:
`cur` then addresses the last node of the path, and `parent` is either
untouched or addresses a node of the path strictly below the start. -/
theorem deleteWalk_some (root : TrieNode) :
    ∀ (key : List Char) (cur : List (Fin ALPHABET_SIZE))
      (parent : Option (List (Fin ALPHABET_SIZE))),
      (root.getAt (cur ++ path key)).isNull = false →
      ∃ parent1, deleteWalk root key cur parent = some (cur ++ path key, parent1) ∧
        (parent1 = parent ∨
          ∃ p1, p1 ≠ [] ∧ p1 <+: path key ∧ parent1 = some (cur ++ p1)) := by
  intro key
  induction key with
  | nil =>
    intro cur parent _
    exact ⟨parent, by simp [deleteWalk, path], Or.inl rfl⟩
  | cons c rest ih =>
    intro cur parent h
    have hsplit : cur ++ path (c :: rest) = (cur ++ [idx c]) ++ path rest := by
      simp [path]
    rw [hsplit] at h
    have hchild : ((root.getAt cur).child (idx c)).isNull = false := by
      cases hc : ((root.getAt cur).child (idx c)).isNull with
      | false => rfl
      | true =>
        rw [getAt_append, getAt_snoc, isNull_eq_true_iff.mp hc, getAt_null] at h
        simp [isNull] at h
    obtain ⟨parent1, hwalk, hpar⟩ := ih (cur ++ [idx c])
      (if countChild (root.getAt cur) > 1 ∧
          countChild ((root.getAt cur).child (idx c)) = 1 then
        some (cur ++ [idx c]) else parent) h
    refine ⟨parent1, ?_, ?_⟩
    · simp only [deleteWalk, hchild, Bool.false_eq_true, if_false]
      rw [hwalk, hsplit]
    · rcases hpar with hpar | ⟨p1, _, hp1, hpar⟩
      · by_cases hcond : countChild (root.getAt cur) > 1 ∧
            countChild ((root.getAt cur).child (idx c)) = 1
        · rw [if_pos hcond] at hpar
          exact Or.inr ⟨[idx c], by simp, by simp [path], hpar⟩
        · rw [if_neg hcond] at hpar
          exact Or.inl hpar
      · refine Or.inr ⟨idx c :: p1, by simp, ?_, by simp [hpar]⟩
        simpa [path] using hp1

/-- The loop only runs to its end when the whole path of `key` exists. -/
theorem deleteWalk_path (root : TrieNode) :
    ∀ (key : List Char) (cur : List (Fin ALPHABET_SIZE))
      (parent : Option (List (Fin ALPHABET_SIZE)))
      (r : List (Fin ALPHABET_SIZE) × Option (List (Fin ALPHABET_SIZE))),
      (root.getAt cur).isNull = false → deleteWalk root key cur parent = some r →
      (root.getAt (cur ++ path key)).isNull = false := by
  intro key
  induction key with
  | nil =>
    intro cur parent r h _
    simpa [path] using h
  | cons c rest ih =>
    intro cur parent r h hwalk
    have hsplit : cur ++ path (c :: rest) = (cur ++ [idx c]) ++ path rest := by
      simp [path]
    rw [hsplit]
    by_cases hchild : ((root.getAt cur).child (idx c)).isNull = true
    · simp [deleteWalk, hchild] at hwalk
    · simp only [deleteWalk, hchild, if_false] at hwalk
      exact ih _ _ r (by rw [getAt_snoc]; simpa using hchild) hwalk

/-- When the path of `key` does not exist, `deleteWord` changes nothing and
reports the miss. -/
theorem deleteWord_of_missing (t : Trie) (key : List Char)
    (hroot : t.root.isNull = false) (h : (t.root.getAt (path key)).isNull = true) :
    t.deleteWord key = (t, ["Not found ".toList ++ key]) := by
  have hwalk : deleteWalk t.root key [] none = none := by
    cases hw : deleteWalk t.root key [] none with
    | none => rfl
    | some r =>
      have := deleteWalk_path t.root key [] none r hroot hw
      rw [List.nil_append, h] at this
      exact absurd this (by simp)
  simp only [Trie.deleteWord, hwalk]

/-- When the path of `key` exists, `deleteWord` prints nothing and does one of
three things: it clears the flag of the last node (the node has children); or
it empties the slot of the last node; or it empties that slot and then a slot
higher up on the path. -/
theorem deleteWord_cases (t : Trie) (key : List Char)
    (h : (t.root.getAt (path key)).isNull = false) :
    (countChild (t.root.getAt (path key)) > 0 ∧
      t.deleteWord key =
        (⟨t.root.setAt (path key) (t.root.getAt (path key)).clearEnd⟩, [])) ∨
    (countChild (t.root.getAt (path key)) = 0 ∧
      (t.deleteWord key = (⟨t.root.setAt (path key) null⟩, []) ∨
        ∃ p1, p1 ≠ [] ∧ p1 <+: path key ∧
          t.deleteWord key = (⟨(t.root.setAt (path key) null).setAt p1 null⟩, []))) := by
  obtain ⟨parent1, hwalk, hpar⟩ := deleteWalk_some t.root key [] none (by simpa using h)
  simp only [List.nil_append] at hwalk hpar
  by_cases hc : countChild (t.root.getAt (path key)) > 0
  · left
    refine ⟨hc, ?_⟩
    simp only [Trie.deleteWord, hwalk, if_pos hc]
  · right
    refine ⟨by omega, ?_⟩
    rcases hpar with hpar | ⟨p1, hne, hpre, hpar⟩
    · left
      subst hpar
      simp only [Trie.deleteWord, hwalk, if_neg hc]
    · subst hpar
      by_cases hnull : ((t.root.setAt (path key) null).getAt p1).isNull = true
      · left
        simp only [Trie.deleteWord, hwalk, if_neg hc, if_pos hnull]
      · right
        refine ⟨p1, hne, hpre, ?_⟩
        simp only [Trie.deleteWord, hwalk, if_neg hc, if_neg hnull, clear]

/-- After `deleteWord key` on a trie in which the path of `key` exists, `search
key` is false. -/
theorem search_deleteWord_self (t : Trie) (key : List Char)
    (h : (t.root.getAt (path key)).isNull = false) :
    (t.deleteWord key).1.search key = false := by
  rcases deleteWord_cases t key h with ⟨_, heq⟩ | ⟨_, heq | ⟨p1, _, hpre, heq⟩⟩
  · rw [heq]
    show searchFrom key _ = false
    rw [searchFrom_eq, (getAt_setAt_clearEnd t.root (path key) (path key)).2.2]
    simp
  · rw [heq]
    show searchFrom key _ = false
    rw [searchFrom_eq]
    have := getAt_setAt_null_append t.root (path key) []
    rw [List.append_nil] at this
    rw [this]; rfl
  · rw [heq]
    show searchFrom key _ = false
    rw [searchFrom_eq]
    obtain ⟨s, hs⟩ := hpre
    rw [← hs, getAt_setAt_null_append]; rfl

/-- With a non-empty key, `deleteWord` leaves the root in place. -/
theorem deleteWord_root_isNull (t : Trie) (key : List Char) (hkey : key ≠ [])
    (hroot : t.root.isNull = false) : (t.deleteWord key).1.root.isNull = false := by
  have hp : path key ≠ [] := by
    cases key with
    | nil => exact absurd rfl hkey
    | cons c rest => simp [path]
  by_cases h : (t.root.getAt (path key)).isNull = false
  · rcases deleteWord_cases t key h with ⟨_, heq⟩ | ⟨_, heq | ⟨p1, hne, _, heq⟩⟩
    · rw [heq]; exact setAt_isNull _ _ _ hroot hp
    · rw [heq]; exact setAt_isNull _ _ _ hroot hp
    · rw [heq]; exact setAt_isNull _ _ _ (setAt_isNull _ _ _ hroot hp) hne
  · rw [deleteWord_of_missing t key hroot (by simpa using h)]
    exact hroot

/-! ## Sequences of calls -/

theorem runOps_append (ops : List Op) (o : Op) :
    runOps (ops ++ [o]) = Op.run (runOps ops) o := by
  simp [runOps, List.foldl_append]

theorem goodOps_append {ops : List Op} {o : Op} (h : goodOps (ops ++ [o])) :
    goodOps ops ∧ o.arg ≠ [] ∧ lowercase o.arg := by
  refine ⟨fun x hx => h x (List.mem_append_left _ hx), ?_⟩
  exact h o (List.mem_append_right _ (List.mem_singleton.mpr rfl))

/-- Calls with non-empty arguments never remove the root. -/
theorem runOps_root_isNull (ops : List Op) (h : goodOps ops) :
    (runOps ops).root.isNull = false := by
  induction ops using List.reverseRecOn with
  | nil => rfl
  | append_singleton ops o ih =>
    obtain ⟨hops, harg, _⟩ := goodOps_append h
    rw [runOps_append]
    cases o with
    | insert w =>
      show (insertFrom w w (runOps ops).root).isNull = false
      rw [insertFrom_isNull, ih hops]
    | deleteWord k => exact deleteWord_root_isNull _ k harg (ih hops)

/-! ## Claims C1 to C6 -/

/-- C1: after inserting the words of `ws` (all over 'a'..'z') into a freshly
initialised trie, `search K` is true exactly when `K` is one of the inserted
words, for every key `K` over 'a'..'z'. -/
theorem search_build_iff (ws : List (List Char)) (K : List Char)
    (hws : ∀ w ∈ ws, lowercase w) (hK : lowercase K) :
    (build ws).search K = true ↔ K ∈ ws := by
  show searchFrom K (build ws).root = true ↔ _
  rw [searchFrom_eq, build_isEnd]
  constructor
  · rintro ⟨w, hw, hp⟩
    rw [← path_inj (hws w hw) hK hp]
    exact hw
  · intro h
    exact ⟨K, h, rfl⟩

theorem search_build_iff_witness :
    (∀ w ∈ ["ab".toList, "abcd".toList], lowercase w) ∧ lowercase "abc".toList ∧
      ((build ["ab".toList, "abcd".toList]).search "abc".toList = true ↔
        "abc".toList ∈ ["ab".toList, "abcd".toList]) :=
  ⟨by decide, by decide, search_build_iff _ _ (by decide) (by decide)⟩

/-- C2 (the code departs from the claim): with "ab", "abc", "x" stored,
`deleteWord "abc"` also removes "ab"; with "abc", "abd", "x" stored,
`deleteWord "abc"` also removes "abd". -/
theorem deleteWord_removes_other_word :
    (build ["ab".toList, "abc".toList, "x".toList]).search "ab".toList = true ∧
    (build ["ab".toList, "abc".toList, "x".toList]).search "abc".toList = true ∧
    ((build ["ab".toList, "abc".toList, "x".toList]).deleteWord "abc".toList).1.search
      "ab".toList = false ∧
    (build ["abc".toList, "abd".toList, "x".toList]).search "abd".toList = true ∧
    (build ["abc".toList, "abd".toList, "x".toList]).search "abc".toList = true ∧
    ((build ["abc".toList, "abd".toList, "x".toList]).deleteWord "abc".toList).1.search
      "abd".toList = false := by
  decide

/-- C3: in every trie reached from a freshly initialised one by `insert` and
`deleteWord` calls on non-empty words over 'a'..'z', and for every non-empty
word `W` over 'a'..'z', after `insert W` and `deleteWord W` the root still
exists and `search W` returns false. -/
theorem search_insert_deleteWord (ops : List Op) (W : List Char) (hops : goodOps ops)
    (hW : W ≠ []) (_hlow : lowercase W) :
    (((runOps ops).insert W).deleteWord W).1.root.isNull = false ∧
      (((runOps ops).insert W).deleteWord W).1.search W = false := by
  have hroot : ((runOps ops).insert W).root.isNull = false := by
    show (insertFrom W W (runOps ops).root).isNull = false
    rw [insertFrom_isNull, runOps_root_isNull ops hops]
  refine ⟨deleteWord_root_isNull _ W hW hroot, search_deleteWord_self _ W ?_⟩
  have hend : (((runOps ops).insert W).root.getAt (path W)).isEnd = true := by
    show ((insertFrom W W (runOps ops).root).getAt (path W)).isEnd = true
    rw [insertFrom_isEnd W W _ _ (runOps_root_isNull ops hops)]
    simp
  cases hn : (((runOps ops).insert W).root.getAt (path W)) with
  | null => rw [hn] at hend; simp [isEnd] at hend
  | node ch e w => rfl

theorem search_insert_deleteWord_witness :
    goodOps [Op.insert "abc".toList, Op.insert "x".toList, Op.deleteWord "abc".toList] ∧
    "ab".toList ≠ [] ∧ lowercase "ab".toList ∧
    ((((runOps [Op.insert "abc".toList, Op.insert "x".toList,
        Op.deleteWord "abc".toList]).insert "ab".toList).deleteWord
          "ab".toList).1.root.isNull = false ∧
      (((runOps [Op.insert "abc".toList, Op.insert "x".toList,
        Op.deleteWord "abc".toList]).insert "ab".toList).deleteWord
          "ab".toList).1.search "ab".toList = false) :=
  ⟨by decide, by decide, by decide,
    search_insert_deleteWord _ _ (by decide) (by decide) (by decide)⟩

theorem isNull_of_isEnd {n : TrieNode} (h : n.isEnd = true) : n.isNull = false := by
  cases n with
  | null => simp [isEnd] at h
  | node ch e w => rfl

theorem isNull_of_getAt_append {n : TrieNode} {p q : List (Fin ALPHABET_SIZE)}
    (h : (n.getAt (p ++ q)).isNull = false) : (n.getAt p).isNull = false := by
  cases hp : (n.getAt p).isNull with
  | false => rfl
  | true =>
    rw [getAt_append, isNull_eq_true_iff.mp hp, getAt_null] at h
    simp [isNull] at h

/-- C4: in a trie built by inserting words over 'a'..'z', if the stored word `W`
is a strict prefix of the stored word `V`, then `deleteWord W` prints nothing
and only clears the flag of the node of `W`: the same slots are occupied
afterwards (no node removed or added, every node keeps its children), every
node keeps its `word`, every node other than that of `W` keeps its flag, the
flag of the node of `W` is false, and every other stored word is still found. -/
theorem deleteWord_strict_prefix (ws : List (List Char)) (W V : List Char)
    (hws : ∀ w ∈ ws, lowercase w) (hW : W ∈ ws) (hV : V ∈ ws)
    (hpre : W <+: V) (hne : W ≠ V) :
    ((build ws).deleteWord W).2 = [] ∧
    (∀ q : List (Fin ALPHABET_SIZE),
      ((((build ws).deleteWord W).1.root.getAt q).isNull = ((build ws).root.getAt q).isNull ∧
       (((build ws).deleteWord W).1.root.getAt q).wordOf = ((build ws).root.getAt q).wordOf ∧
       (((build ws).deleteWord W).1.root.getAt q).isEnd =
        (if q = path W then false else ((build ws).root.getAt q).isEnd))) ∧
    (∀ U ∈ ws, U ≠ W → ((build ws).deleteWord W).1.search U = true) := by
  obtain ⟨s, hs⟩ := hpre
  have hVend : ((build ws).root.getAt (path V)).isEnd = true :=
    (build_isEnd ws _).mpr ⟨V, hV, rfl⟩
  have hWend : ((build ws).root.getAt (path W)).isEnd = true :=
    (build_isEnd ws _).mpr ⟨W, hW, rfl⟩
  have hcount : countChild ((build ws).root.getAt (path W)) > 0 := by
    cases s with
    | nil => exact absurd (by simpa using hs) hne
    | cons c s1 =>
      have hpath : path V = (path W ++ [idx c]) ++ path s1 := by
        rw [← hs]; simp [path]
      have hnn := isNull_of_isEnd hVend
      rw [hpath] at hnn
      have hchild := isNull_of_getAt_append hnn
      rw [getAt_snoc] at hchild
      exact countChild_pos.mpr ⟨idx c, hchild⟩
  have heq : (build ws).deleteWord W =
      (⟨(build ws).root.setAt (path W) ((build ws).root.getAt (path W)).clearEnd⟩, []) := by
    rcases deleteWord_cases (build ws) W (isNull_of_isEnd hWend) with ⟨_, h⟩ | ⟨h0, _⟩
    · exact h
    · omega
  rw [heq]
  refine ⟨rfl, fun q => getAt_setAt_clearEnd _ _ q, ?_⟩
  intro U hU hUW
  show searchFrom U _ = true
  rw [searchFrom_eq, (getAt_setAt_clearEnd _ _ _).2.2]
  have hp : path U ≠ path W := fun h => hUW (path_inj (hws U hU) (hws W hW) h)
  rw [if_neg hp]
  exact (build_isEnd ws _).mpr ⟨U, hU, rfl⟩

theorem deleteWord_strict_prefix_witness :
    (∀ w ∈ ["ab".toList, "abc".toList, "x".toList], lowercase w) ∧
    "ab".toList ∈ ["ab".toList, "abc".toList, "x".toList] ∧
    "abc".toList ∈ ["ab".toList, "abc".toList, "x".toList] ∧
    "ab".toList <+: "abc".toList ∧ "ab".toList ≠ "abc".toList ∧
    (((build ["ab".toList, "abc".toList, "x".toList]).deleteWord "ab".toList).2 = [] ∧
    (∀ q : List (Fin ALPHABET_SIZE),
      ((((build ["ab".toList, "abc".toList, "x".toList]).deleteWord
          "ab".toList).1.root.getAt q).isNull =
        ((build ["ab".toList, "abc".toList, "x".toList]).root.getAt q).isNull ∧
       (((build ["ab".toList, "abc".toList, "x".toList]).deleteWord
          "ab".toList).1.root.getAt q).wordOf =
        ((build ["ab".toList, "abc".toList, "x".toList]).root.getAt q).wordOf ∧
       (((build ["ab".toList, "abc".toList, "x".toList]).deleteWord
          "ab".toList).1.root.getAt q).isEnd =
        (if q = path "ab".toList then false
          else ((build ["ab".toList, "abc".toList, "x".toList]).root.getAt q).isEnd))) ∧
    (∀ U ∈ ["ab".toList, "abc".toList, "x".toList], U ≠ "ab".toList →
      ((build ["ab".toList, "abc".toList, "x".toList]).deleteWord
        "ab".toList).1.search U = true)) :=
  ⟨by decide, by decide, by decide, by decide, by decide,
    deleteWord_strict_prefix _ _ "abc".toList (by decide) (by decide) (by decide)
      (by decide) (by decide)⟩

/-- C5 (the code departs from the claim): in the trie holding only "abc", the
last node of "abc" has no children, no node of the path has two children and
none but the last is terminal; yet after `deleteWord "abc"` the root still has
its child on 'a', which still has its child on 'b'.  Only the last node is
gone. -/
theorem deleteWord_leaves_chain :
    (build ["abc".toList]).search "abc".toList = true ∧
    countChild ((build ["abc".toList]).root.getAt (path "abc".toList)) = 0 ∧
    countChild (build ["abc".toList]).root = 1 ∧
    countChild ((build ["abc".toList]).root.getAt (path "a".toList)) = 1 ∧
    countChild ((build ["abc".toList]).root.getAt (path "ab".toList)) = 1 ∧
    ((build ["abc".toList]).root.getAt (path "a".toList)).isEnd = false ∧
    ((build ["abc".toList]).root.getAt (path "ab".toList)).isEnd = false ∧
    (((build ["abc".toList]).deleteWord "abc".toList).1.root.child (idx 'a')).isNull = false ∧
    countChild ((build ["abc".toList]).deleteWord "abc".toList).1.root = 1 ∧
    ((((build ["abc".toList]).deleteWord "abc".toList).1.root.getAt
      (path "ab".toList))).isNull = false ∧
    ((((build ["abc".toList]).deleteWord "abc".toList).1.root.getAt
      (path "abc".toList))).isNull = true := by
  decide

/-- C6 (the code departs from the claim): after `init`, `insert "abc"` and
`deleteWord "abc"`, the node reached by "ab" is still there, is not the root,
has no children and is not terminal. -/
theorem deleteWord_leaves_dangling_leaf :
    goodOps [Op.insert "abc".toList, Op.deleteWord "abc".toList] ∧
    ((runOps [Op.insert "abc".toList, Op.deleteWord "abc".toList]).root.getAt
      (path "ab".toList)).isNull = false ∧
    countChild ((runOps [Op.insert "abc".toList, Op.deleteWord "abc".toList]).root.getAt
      (path "ab".toList)) = 0 ∧
    ((runOps [Op.insert "abc".toList, Op.deleteWord "abc".toList]).root.getAt
      (path "ab".toList)).isEnd = false := by
  decide

/-! ## The two traversals -/

theorem foldl_append_eq {β : Type} (f : Fin ALPHABET_SIZE → List β)
    (l : List (Fin ALPHABET_SIZE)) (acc : List β) :
    l.foldl (fun out i => out ++ f i) acc = acc ++ l.flatMap f := by
  induction l generalizing acc with
  | nil => simp
  | cons a l ih => rw [List.foldl_cons, ih, List.flatMap_cons, List.append_assoc]

theorem dfs_print_node (ch : Fin ALPHABET_SIZE → TrieNode) (e : Bool) (w : List Char) :
    dfs_print (node ch e w) =
      (if e then [w] else []) ++
        (List.finRange ALPHABET_SIZE).flatMap (fun i => dfs_print (ch i)) := by
  rw [dfs_print, foldl_append_eq (fun i => dfs_print (ch i))]
  simp

theorem wrapInt_of_isInt {x : Int} (h : isInt x) : wrapInt x = x := by
  unfold isInt at h
  unfold wrapInt
  omega

theorem isInt_wrapInt (x : Int) : isInt (wrapInt x) := by
  unfold isInt wrapInt
  omega

/-- Decrementing and then incrementing an `int` gives the value back, also
across the wrap at `INT_MIN`. -/
theorem wrapInt_restore {x : Int} (h : isInt x) : wrapInt (wrapInt (x - 1) + 1) = x := by
  unfold isInt at h
  unfold wrapInt
  omega

theorem isInt_update {cnt : Fin ALPHABET_SIZE → Int} (h : ∀ i, isInt (cnt i))
    (i : Fin ALPHABET_SIZE) (x : Int) : ∀ j, isInt (Function.update cnt i (wrapInt x) j) := by
  intro j
  by_cases hj : j = i
  · subst hj; rw [Function.update_same]; exact isInt_wrapInt x
  · rw [Function.update_noteq hj]; exact h j

theorem update_restore (cnt : Fin ALPHABET_SIZE → Int) (i : Fin ALPHABET_SIZE)
    (h : isInt (cnt i)) :
    Function.update (Function.update cnt i (wrapInt (cnt i - 1))) i
      (wrapInt ((Function.update cnt i (wrapInt (cnt i - 1))) i + 1)) = cnt := by
  funext j
  by_cases hj : j = i
  · subst hj; simp [wrapInt_restore h]
  · simp [Function.update_noteq hj]

/-- A call of `dfs` on `int` counters hands back `cnt` as it received it and
appends `dfsOut` to `res`. -/
theorem dfs_eq (n : TrieNode) :
    ∀ (cnt : Fin ALPHABET_SIZE → Int) (index : Fin ALPHABET_SIZE) (res : List (List Char)),
      (∀ i, isInt (cnt i)) → dfs n cnt index res = (cnt, res ++ dfsOut n cnt index) := by
  induction n with
  | null => intro cnt index res _; simp [dfs, dfsOut]
  | node ch e w ih =>
    intro cnt index res hr
    have hfold : ∀ (l : List (Fin ALPHABET_SIZE))
        (st : (Fin ALPHABET_SIZE → Int) × List (List Char)), (∀ i, isInt (st.1 i)) →
        l.foldl
          (fun st i =>
            if (ch i).isNull then st
            else
              let cnt1 := Function.update st.1 i (wrapInt (st.1 i - 1))
              let st2 := dfs (ch i) cnt1 i st.2
              (Function.update st2.1 i (wrapInt (st2.1 i + 1)), st2.2)) st =
          (st.1, st.2 ++ l.flatMap
            (fun i => dfsOut (ch i) (Function.update st.1 i (wrapInt (st.1 i - 1))) i)) := by
      intro l
      induction l with
      | nil => intro st _; simp
      | cons a l ihl =>
        intro st hst
        rw [List.foldl_cons, ihl _ ?_]
        · by_cases ha : (ch a).isNull = true
          · rw [if_pos ha, List.flatMap_cons, isNull_eq_true_iff.mp ha]
            simp [dfsOut]
          · rw [if_neg ha]
            simp only [ih a _ _ _ (isInt_update hst a _), update_restore st.1 a (hst a),
              List.flatMap_cons, List.append_assoc]
        · by_cases ha : (ch a).isNull = true
          · rw [if_pos ha]; exact hst
          · rw [if_neg ha]
            simp only [ih a _ _ _ (isInt_update hst a _), update_restore st.1 a (hst a)]
            exact hst
    rw [dfs, dfsOut]
    by_cases hneg : cnt index < 0
    · simp [hneg]
    · rw [if_neg hneg, if_neg hneg, hfold _ _ hr]
      cases e <;> by_cases hlen : 3 ≤ w.length <;> simp [hlen]

/-- The lines of `dfs_print` are the words of the terminal nodes below the
argument. -/
theorem mem_dfs_print (n : TrieNode) :
    ∀ x : List Char, x ∈ dfs_print n ↔
      ∃ q, (n.getAt q).isEnd = true ∧ (n.getAt q).wordOf = x := by
  induction n with
  | null => intro x; simp [dfs_print, isEnd]
  | node ch e w ih =>
    intro x
    rw [dfs_print_node, List.mem_append, List.mem_flatMap]
    constructor
    · rintro (h | ⟨i, _, h⟩)
      · cases e with
        | false => simp at h
        | true =>
          simp only [if_true, List.mem_singleton] at h
          exact ⟨[], rfl, h.symm⟩
      · obtain ⟨q, hq, hx⟩ := (ih i x).mp h
        exact ⟨i :: q, hq, hx⟩
    · rintro ⟨q, hq, hx⟩
      cases q with
      | nil =>
        left
        simp only [getAt, isEnd, wordOf] at hq hx
        simp [hq, hx]
      | cons i q =>
        right
        exact ⟨i, List.mem_finRange i, (ih i x).mpr ⟨q, hq, hx⟩⟩

/-- The words `dfs` appends are the words of length at least 3 of the terminal
nodes reached without the budget guard firing. -/
theorem mem_dfsOut (n : TrieNode) :
    ∀ (cnt : Fin ALPHABET_SIZE → Int) (index : Fin ALPHABET_SIZE) (x : List Char),
      x ∈ dfsOut n cnt index ↔
        ∃ q, fits cnt index q ∧ (n.getAt q).isEnd = true ∧ (n.getAt q).wordOf = x ∧
          3 ≤ x.length := by
  induction n with
  | null => intro cnt index x; simp [dfsOut, isEnd]
  | node ch e w ih =>
    intro cnt index x
    rw [dfsOut]
    by_cases hneg : cnt index < 0
    · rw [if_pos hneg]
      simp only [List.not_mem_nil, false_iff, not_exists]
      intro q hq
      cases q with
      | nil => simp only [fits] at hq; omega
      | cons i q => simp only [fits] at hq; omega
    · rw [if_neg hneg, List.mem_append, List.mem_flatMap]
      constructor
      · rintro (h | ⟨i, _, h⟩)
        · by_cases hc : e = true ∧ 3 ≤ w.length
          · rw [if_pos hc, List.mem_singleton] at h
            subst h
            exact ⟨[], by simp only [fits]; omega, hc.1, rfl, hc.2⟩
          · rw [if_neg hc] at h; simp at h
        · obtain ⟨q, hf, hq, hx, hl⟩ := (ih i _ _ x).mp h
          exact ⟨i :: q, ⟨by omega, hf⟩, hq, hx, hl⟩
      · rintro ⟨q, hf, hq, hx, hl⟩
        cases q with
        | nil =>
          left
          simp only [getAt, isEnd, wordOf] at hq hx
          subst hx
          simp [hq, hl]
        | cons i q =>
          right
          exact ⟨i, List.mem_finRange i, (ih i _ _ x).mpr ⟨q, hf.2, hq, hx, hl⟩⟩

theorem flatMap_sublist {β : Type} (f g : Fin ALPHABET_SIZE → List β)
    (h : ∀ i, List.Sublist (f i) (g i)) (l : List (Fin ALPHABET_SIZE)) :
    List.Sublist (l.flatMap f) (l.flatMap g) := by
  induction l with
  | nil => simp
  | cons a l ih =>
    rw [List.flatMap_cons, List.flatMap_cons]
    exact (h a).append ih

/-- The words `dfs` appends form a sublist of what `dfs_print` writes for the
same node. -/
theorem dfsOut_sublist (n : TrieNode) :
    ∀ (cnt : Fin ALPHABET_SIZE → Int) (index : Fin ALPHABET_SIZE),
      List.Sublist (dfsOut n cnt index) (dfs_print n) := by
  induction n with
  | null => intro cnt index; simp [dfsOut]
  | node ch e w ih =>
    intro cnt index
    rw [dfsOut, dfs_print_node]
    by_cases hneg : cnt index < 0
    · rw [if_pos hneg]; exact List.nil_sublist _
    · rw [if_neg hneg]
      refine List.Sublist.append ?_ (flatMap_sublist _ _ (fun i => ih i _ _) _)
      cases e with
      | false => simp
      | true =>
        by_cases hl : 3 ≤ w.length
        · simp [hl]
        · simp [hl]

/-! ## Order of the lines -/

theorem char_lt_iff (c d : Char) : c < d ↔ c.toNat < d.toNat := Iff.rfl

theorem lex_cons_inv {α : Type} {r : α → α → Prop} {a b : α} {l1 l2 : List α}
    (h : List.Lex r (a :: l1) (b :: l2)) : r a b ∨ (a = b ∧ List.Lex r l1 l2) := by
  cases h with
  | cons h1 => exact Or.inr ⟨rfl, h1⟩
  | rel h1 => exact Or.inl h1

/-- On words over 'a'..'z', the order of the index sequences is the
lexicographic order of the words. -/
theorem lex_of_path : ∀ {x y : List Char}, lowercase x → lowercase y →
    List.Lex (· < ·) (path x) (path y) → List.Lex (· < ·) x y
  | [], [], _, _, h => by simp [path] at h
  | [], _ :: _, _, _, _ => List.Lex.nil
  | _ :: _, [], _, _, h => by simp [path] at h
  | c :: x, d :: y, hx, hy, h => by
    rw [lowercase_cons] at hx hy
    simp only [path, List.map_cons] at h
    rcases lex_cons_inv h with h1 | ⟨hcd, h1⟩
    · exact List.Lex.rel ((char_lt_iff c d).mpr ((idx_lt_iff hx.1 hy.1).mp h1))
    · have hcd1 : c = d := idx_inj hx.1 hy.1 hcd
      subst hcd1
      exact List.Lex.cons (lex_of_path hx.2 hy.2 h1)

theorem labeled_child {pre : List (Fin ALPHABET_SIZE)} {ch : Fin ALPHABET_SIZE → TrieNode}
    {e : Bool} {w : List Char} (h : labeled pre (node ch e w)) (i : Fin ALPHABET_SIZE) :
    labeled (pre ++ [i]) (ch i) := by
  intro q hq
  have := h (i :: q) hq
  simpa [getAt, child] using this

theorem labeled_mem {pre : List (Fin ALPHABET_SIZE)} {n : TrieNode} (h : labeled pre n)
    {x : List Char} (hx : x ∈ dfs_print n) : lowercase x ∧ ∃ q, path x = pre ++ q := by
  obtain ⟨q, hq, hw⟩ := (mem_dfs_print n x).mp hx
  have := h q hq
  rw [hw] at this
  exact ⟨this.1, q, this.2⟩

/-- Below a node whose terminal nodes carry their own paths, `dfs_print` writes
the words in strictly increasing order of their index sequences. -/
theorem dfs_print_sorted (n : TrieNode) :
    ∀ pre : List (Fin ALPHABET_SIZE), labeled pre n →
      (dfs_print n).Pairwise (fun x y => List.Lex (· < ·) (path x) (path y)) := by
  induction n with
  | null => intro pre _; simp [dfs_print]
  | node ch e w ih =>
    intro pre hlab
    rw [dfs_print_node, List.pairwise_append]
    refine ⟨?_, ?_, ?_⟩
    · cases e <;> simp
    · rw [List.pairwise_flatMap]
      refine ⟨fun i _ => ih i _ (labeled_child hlab i), ?_⟩
      refine (List.pairwise_lt_finRange ALPHABET_SIZE).imp ?_
      intro i j hij x hx y hy
      obtain ⟨_, q1, h1⟩ := labeled_mem (labeled_child hlab i) hx
      obtain ⟨_, q2, h2⟩ := labeled_mem (labeled_child hlab j) hy
      rw [h1, h2, List.append_assoc, List.append_assoc]
      exact List.Lex.append_left _ (List.Lex.rel hij) _
    · intro a ha b hb
      obtain ⟨i, _, hbi⟩ := List.mem_flatMap.mp hb
      obtain ⟨_, q2, h2⟩ := labeled_mem (labeled_child hlab i) hbi
      have hae : e = true ∧ a = w := by
        cases e with
        | false => simp at ha
        | true => simpa using ha
      have h1 := (hlab [] (by simpa [getAt, isEnd] using hae.1)).2
      simp only [getAt, wordOf, List.append_nil] at h1
      rw [hae.2, h1, h2, List.append_assoc]
      have := List.Lex.append_left (· < ·) (List.Lex.nil : List.Lex (· < ·) [] ([i] ++ q2)) pre
      simpa using this

/-- Below such a node, the lines of `dfs_print` are in strictly increasing
lexicographic order. -/
theorem dfs_print_lex (n : TrieNode) (pre : List (Fin ALPHABET_SIZE)) (h : labeled pre n) :
    (dfs_print n).Pairwise (List.Lex (· < ·)) := by
  refine (dfs_print_sorted n pre h).imp_of_mem ?_
  intro a b ha hb hab
  exact lex_of_path (labeled_mem h ha).1 (labeled_mem h hb).1 hab

theorem lex_irrefl : ∀ x : List Char, ¬ List.Lex (· < ·) x x
  | [], h => by cases h
  | c :: x, h => by
    cases h with
    | cons h1 => exact lex_irrefl x h1
    | rel h1 => exact absurd ((char_lt_iff c c).mp h1) (Nat.lt_irrefl _)

theorem nodup_of_lex {l : List (List Char)} (h : l.Pairwise (List.Lex (· < ·))) :
    l.Nodup := by
  refine h.imp ?_
  intro a b hab heq
  subst heq
  exact lex_irrefl a hab

/-! ## Tries built by insertions -/

theorem build_wordOf (ws : List (List Char)) (q : List (Fin ALPHABET_SIZE))
    (h : ((build ws).root.getAt q).isEnd = true) :
    ((build ws).root.getAt q).wordOf ∈ ws ∧ path ((build ws).root.getAt q).wordOf = q := by
  induction ws using List.reverseRecOn with
  | nil => simp [build, Trie.init, getAt_newTrieNode_isEnd] at h
  | append_singleton ws w ih =>
    rw [build_append] at h ⊢
    change ((insertFrom w w (build ws).root).getAt q).isEnd = true at h
    show ((insertFrom w w (build ws).root).getAt q).wordOf ∈ ws ++ [w] ∧
      path ((insertFrom w w (build ws).root).getAt q).wordOf = q
    rw [insertFrom_isEnd w w _ q (build_root_isNull ws)] at h
    rw [insertFrom_wordOf w w _ q (build_root_isNull ws)]
    by_cases hq : q = path w
    · rw [if_pos hq]
      exact ⟨by simp, hq.symm⟩
    · rw [if_neg hq]
      simp only [hq, decide_False, Bool.false_or] at h
      exact ⟨List.mem_append_left _ (ih h).1, (ih h).2⟩

/-- In a trie built by inserting words over 'a'..'z', the terminal nodes are the
ends of the paths of the inserted words, and each carries its word. -/
theorem build_terminal (ws : List (List Char)) (hws : ∀ w ∈ ws, lowercase w)
    (q : List (Fin ALPHABET_SIZE)) (x : List Char) :
    (((build ws).root.getAt q).isEnd = true ∧ ((build ws).root.getAt q).wordOf = x) ↔
      (x ∈ ws ∧ path x = q) := by
  constructor
  · rintro ⟨hq, hx⟩
    rw [← hx]
    exact build_wordOf ws q hq
  · rintro ⟨hx, hq⟩
    have hend : ((build ws).root.getAt q).isEnd = true := (build_isEnd ws q).mpr ⟨x, hx, hq⟩
    refine ⟨hend, ?_⟩
    have h := build_wordOf ws q hend
    exact path_inj (hws _ h.1) (hws x hx) (by rw [h.2, hq])

theorem build_labeled (ws : List (List Char)) (hws : ∀ w ∈ ws, lowercase w) :
    labeled [] (build ws).root := by
  intro q hq
  have h := build_wordOf ws q hq
  exact ⟨hws _ h.1, by simpa using h.2⟩

theorem labeled_getAt {pre : List (Fin ALPHABET_SIZE)} {n : TrieNode} (h : labeled pre n)
    (p : List (Fin ALPHABET_SIZE)) : labeled (pre ++ p) (n.getAt p) := by
  intro q hq
  rw [← getAt_append] at hq ⊢
  simpa using h (p ++ q) hq

theorem lowercase_append {u v : List Char} :
    lowercase (u ++ v) ↔ lowercase u ∧ lowercase v := by
  unfold lowercase
  simp only [List.mem_append]
  constructor
  · intro h
    exact ⟨fun c hc => h c (Or.inl hc), fun c hc => h c (Or.inr hc)⟩
  · rintro ⟨h1, h2⟩ c (hc | hc)
    · exact h1 c hc
    · exact h2 c hc

/-- For words over 'a'..'z', the path of `x` extends the path of `p` exactly
when `x` starts with `p`. -/
theorem path_prefix_iff {p x : List Char} (hp : lowercase p) (hx : lowercase x) :
    (∃ q, path x = path p ++ q) ↔ p <+: x := by
  constructor
  · rintro ⟨q, hq⟩
    have hsplit : x = x.take p.length ++ x.drop p.length := (List.take_append_drop _ _).symm
    have hlow : lowercase (x.take p.length) := by
      rw [hsplit, lowercase_append] at hx
      exact hx.1
    have htake : path (x.take p.length) = path p := by
      have h1 : path (x.take p.length) = (path x).take p.length := by
        simp [path, List.map_take]
      rw [h1, hq]
      simp [path]
    rw [← path_inj hlow hp htake]
    exact List.take_prefix _ _
  · rintro ⟨t, ht⟩
    exact ⟨path t, by rw [← ht]; simp [path]⟩

theorem findPrefixFrom_eq (pre : List Char) :
    ∀ (rest : List Char) (cur : TrieNode), (cur.getAt (path rest)).isNull = false →
      findPrefixFrom pre rest cur = dfs_print (cur.getAt (path rest)) := by
  intro rest
  induction rest with
  | nil => intro cur _; rfl
  | cons c rest ih =>
    intro cur h
    simp only [path, List.map_cons, getAt] at h ⊢
    have hchild : (cur.child (idx c)).isNull = false := by
      have := isNull_of_getAt_append (n := cur) (p := [idx c]) (q := List.map idx rest)
        (by simpa [getAt] using h)
      simpa [getAt] using this
    simp only [findPrefixFrom, hchild, Bool.false_eq_true, if_false]
    exact ih _ h

/-! ## The letter budget -/

theorem letter_spec : ∀ i : Fin ALPHABET_SIZE,
    idx (letter i) = i ∧ 'a'.toNat ≤ (letter i).toNat ∧ (letter i).toNat ≤ 'z'.toNat := by
  decide

/-- With a budget that is non-negative except possibly at the inbound letter,
no guard fires along `q` exactly when no letter is used more often in `q` than
the budget allows. -/
theorem fits_iff : ∀ (q : List (Fin ALPHABET_SIZE)) (cnt : Fin ALPHABET_SIZE → Int)
    (index : Fin ALPHABET_SIZE), (∀ l, l ≠ index → 0 ≤ cnt l) → (∀ l, cnt l ≤ 2147483647) →
    (fits cnt index q ↔ ∀ l, (q.count l : Int) ≤ cnt l)
  | [], cnt, index, h, _ => by
    simp only [fits, List.count_nil, Nat.cast_zero]
    constructor
    · intro h0 l
      by_cases hl : l = index
      · subst hl; exact h0
      · exact h l hl
    · intro h0; exact h0 index
  | i :: q, cnt, index, h, hmax => by
    simp only [fits]
    have main : (∀ l, 0 ≤ cnt l) →
        (fits (Function.update cnt i (wrapInt (cnt i - 1))) i q ↔
          ∀ l, (((i :: q).count l : Nat) : Int) ≤ cnt l) := by
      intro hnn
      have hw : wrapInt (cnt i - 1) = cnt i - 1 :=
        wrapInt_of_isInt ⟨by have := hnn i; omega, by have := hmax i; omega⟩
      rw [hw]
      have key : ∀ l, ((List.count l (i :: q) : Nat) : Int) ≤ cnt l ↔
          ((List.count l q : Nat) : Int) ≤ Function.update cnt i (cnt i - 1) l := by
        intro l
        by_cases hl : l = i
        · subst hl
          simp only [List.count_cons_self, Function.update_same]
          push_cast
          omega
        · rw [List.count_cons_of_ne hl, Function.update_noteq hl]
      have hall : ∀ l, l ≠ i → 0 ≤ Function.update cnt i (cnt i - 1) l := by
        intro l hl
        rw [Function.update_noteq hl]
        exact hnn l
      have hmax1 : ∀ l, Function.update cnt i (cnt i - 1) l ≤ 2147483647 := by
        intro l
        by_cases hl : l = i
        · subst hl; rw [Function.update_same]; have := hmax l; omega
        · rw [Function.update_noteq hl]; exact hmax l
      rw [fits_iff q _ i hall hmax1]
      exact ⟨fun hf l => (key l).mpr (hf l), fun hf l => (key l).mp (hf l)⟩
    constructor
    · rintro ⟨h0, hf⟩
      have hnn : ∀ l, 0 ≤ cnt l := by
        intro l
        by_cases hli : l = index
        · subst hli; exact h0
        · exact h l hli
      exact (main hnn).mp hf
    · intro hall
      have hnn : ∀ l, 0 ≤ cnt l := fun l =>
        le_trans (Int.ofNat_nonneg _) (hall l)
      exact ⟨hnn index, (main hnn).mpr hall⟩

theorem count_path {x : List Char} (hx : lowercase x) {c : Char}
    (hc : 'a'.toNat ≤ c.toNat ∧ c.toNat ≤ 'z'.toNat) :
    (path x).count (idx c) = x.count c := by
  induction x with
  | nil => rfl
  | cons d x ih =>
    rw [lowercase_cons] at hx
    simp only [path, List.map_cons]
    by_cases hdc : d = c
    · subst hdc
      rw [List.count_cons_self, List.count_cons_self]
      exact congrArg (· + 1) (ih hx.2)
    · have hne : idx d ≠ idx c := fun h => hdc (idx_inj hx.1 hc h)
      rw [List.count_cons_of_ne hne.symm, List.count_cons_of_ne (Ne.symm hdc)]
      exact ih hx.2

/-- For a word over 'a'..'z', the budget condition on letter numbers is the
budget condition on characters. -/
theorem budget_iff {x : List Char} (hx : lowercase x) (cnt : Fin ALPHABET_SIZE → Int) :
    (∀ l, ((path x).count l : Int) ≤ cnt l) ↔
      ∀ c : Char, 'a'.toNat ≤ c.toNat ∧ c.toNat ≤ 'z'.toNat →
        (x.count c : Int) ≤ cnt (idx c) := by
  constructor
  · intro h c hc
    rw [← count_path hx hc]
    exact h (idx c)
  · intro h l
    have hl := letter_spec l
    have := h (letter l) hl.2
    rw [← count_path hx hl.2, hl.1] at this
    exact this

theorem anyEnd_false (n : TrieNode) :
    anyEnd n = false → ∀ q, (n.getAt q).isEnd = false := by
  induction n with
  | null => intro _ q; simp [isEnd]
  | node ch e w ih =>
    intro h q
    simp only [anyEnd, Bool.or_eq_false_iff, List.any_eq_false] at h
    cases q with
    | nil => exact h.1
    | cons i q =>
      have hi := h.2 i (List.mem_finRange i)
      exact ih i (by simpa using hi) q

/-! ## Claims C7 to C10 -/

/-- C7: for a trie built by inserting words over 'a'..'z' and 26 non-negative
`int` counts, the list `dfs` returns from the root (index 0, empty `res`) holds
exactly the inserted words of length at least 3 in which every letter occurs at
most as often as its count; it is empty when all counts are zero. -/
theorem dfs_build_mem (ws : List (List Char)) (cnt : Fin ALPHABET_SIZE → Int)
    (hws : ∀ w ∈ ws, lowercase w) (hcnt : ∀ i, 0 ≤ cnt i ∧ cnt i ≤ 2147483647) :
    (∀ x : List Char, x ∈ (dfs (build ws).root cnt 0 []).2 ↔
      (x ∈ ws ∧ 3 ≤ x.length ∧
        ∀ c : Char, 'a'.toNat ≤ c.toNat ∧ c.toNat ≤ 'z'.toNat →
          (x.count c : Int) ≤ cnt (idx c))) ∧
    ((∀ i, cnt i = 0) → (dfs (build ws).root cnt 0 []).2 = []) := by
  have hmem : ∀ x : List Char, x ∈ (dfs (build ws).root cnt 0 []).2 ↔
      (x ∈ ws ∧ 3 ≤ x.length ∧
        ∀ c : Char, 'a'.toNat ≤ c.toNat ∧ c.toNat ≤ 'z'.toNat →
          (x.count c : Int) ≤ cnt (idx c)) := by
    intro x
    have hint : ∀ i, isInt (cnt i) := fun i => ⟨by have := (hcnt i).1; omega, (hcnt i).2⟩
    rw [dfs_eq _ _ _ _ hint, List.nil_append, mem_dfsOut]
    constructor
    · rintro ⟨q, hf, hq, hx, hl⟩
      obtain ⟨hxs, hp⟩ := (build_terminal ws hws q x).mp ⟨hq, hx⟩
      refine ⟨hxs, hl, (budget_iff (hws x hxs) cnt).mp ?_⟩
      rw [hp]
      exact (fits_iff q cnt 0 (fun l _ => (hcnt l).1) (fun l => (hcnt l).2)).mp hf
    · rintro ⟨hxs, hl, hb⟩
      obtain ⟨hq, hx⟩ := (build_terminal ws hws (path x) x).mpr ⟨hxs, rfl⟩
      refine ⟨path x, ?_, hq, hx, hl⟩
      exact (fits_iff _ cnt 0 (fun l _ => (hcnt l).1) (fun l => (hcnt l).2)).mpr
        ((budget_iff (hws x hxs) cnt).mpr hb)
  refine ⟨hmem, fun hzero => ?_⟩
  rw [List.eq_nil_iff_forall_not_mem]
  intro x hx
  obtain ⟨hxs, hl, hb⟩ := (hmem x).mp hx
  cases x with
  | nil => simp at hl
  | cons c x =>
    have hc := (lowercase_cons.mp (hws _ hxs)).1
    have := hb c hc
    rw [hzero, List.count_cons_self] at this
    push_cast at this
    omega

theorem dfs_build_mem_witness :
    (∀ w ∈ ["cat".toList, "cats".toList, "at".toList, "ca".toList, "dog".toList],
      lowercase w) ∧
    (∀ i, 0 ≤ letterCounts "catss".toList i ∧ letterCounts "catss".toList i ≤ 2147483647) ∧
    ((∀ x : List Char,
      x ∈ (dfs (build ["cat".toList, "cats".toList, "at".toList, "ca".toList,
          "dog".toList]).root (letterCounts "catss".toList) 0 []).2 ↔
      (x ∈ ["cat".toList, "cats".toList, "at".toList, "ca".toList, "dog".toList] ∧
        3 ≤ x.length ∧
        ∀ c : Char, 'a'.toNat ≤ c.toNat ∧ c.toNat ≤ 'z'.toNat →
          (x.count c : Int) ≤ letterCounts "catss".toList (idx c))) ∧
    ((∀ i, letterCounts "catss".toList i = 0) →
      (dfs (build ["cat".toList, "cats".toList, "at".toList, "ca".toList,
          "dog".toList]).root (letterCounts "catss".toList) 0 []).2 = [])) ∧
    (dfs (build ["cat".toList, "cats".toList, "at".toList, "ca".toList,
      "dog".toList]).root (letterCounts "catss".toList) 0 []).2 =
        ["cat".toList, "cats".toList] :=
  ⟨by decide, by decide, dfs_build_mem _ _ (by decide) (by decide), by decide⟩

/-- C8: for a trie built by inserting words over 'a'..'z' and 26 non-negative
`int` counts, the list `dfs` returns from the root is in strictly increasing lexicographic order (so a word
comes before each of its extensions), and no word occurs twice in it. -/
theorem dfs_build_sorted (ws : List (List Char)) (cnt : Fin ALPHABET_SIZE → Int)
    (hws : ∀ w ∈ ws, lowercase w) (hcnt : ∀ i, 0 ≤ cnt i ∧ cnt i ≤ 2147483647) :
    ((dfs (build ws).root cnt 0 []).2).Pairwise (List.Lex (· < ·)) ∧
      ((dfs (build ws).root cnt 0 []).2).Nodup := by
  have hsorted : ((dfs (build ws).root cnt 0 []).2).Pairwise (List.Lex (· < ·)) := by
    have hint : ∀ i, isInt (cnt i) := fun i => ⟨by have := (hcnt i).1; omega, (hcnt i).2⟩
    rw [dfs_eq _ _ _ _ hint, List.nil_append]
    exact (dfs_print_lex _ [] (build_labeled ws hws)).sublist (dfsOut_sublist _ _ _)
  exact ⟨hsorted, nodup_of_lex hsorted⟩

theorem dfs_build_sorted_witness :
    (∀ w ∈ ["cats".toList, "dog".toList, "cat".toList, "act".toList], lowercase w) ∧
    (∀ i, 0 ≤ letterCounts "catsdog".toList i ∧
      letterCounts "catsdog".toList i ≤ 2147483647) ∧
    (((dfs (build ["cats".toList, "dog".toList, "cat".toList, "act".toList]).root
        (letterCounts "catsdog".toList) 0 []).2).Pairwise (List.Lex (· < ·)) ∧
      ((dfs (build ["cats".toList, "dog".toList, "cat".toList, "act".toList]).root
        (letterCounts "catsdog".toList) 0 []).2).Nodup) ∧
    (dfs (build ["cats".toList, "dog".toList, "cat".toList, "act".toList]).root
        (letterCounts "catsdog".toList) 0 []).2 =
      ["act".toList, "cat".toList, "cats".toList, "dog".toList] :=
  ⟨by decide, by decide, dfs_build_sorted _ _ (by decide) (by decide), by decide⟩

/-- C9: for a trie built by inserting words over 'a'..'z' and a prefix `p` over
'a'..'z' whose path exists, `findPrefix p` writes exactly the inserted words
that start with `p`, in strictly increasing lexicographic order, each once. -/
theorem findPrefix_build (ws : List (List Char)) (p : List Char)
    (hws : ∀ w ∈ ws, lowercase w) (hp : lowercase p)
    (hex : ((build ws).root.getAt (path p)).isNull = false) :
    (∀ x : List Char, x ∈ (build ws).findPrefix p ↔ (x ∈ ws ∧ p <+: x)) ∧
    ((build ws).findPrefix p).Pairwise (List.Lex (· < ·)) ∧
    ((build ws).findPrefix p).Nodup := by
  have heq : (build ws).findPrefix p = dfs_print ((build ws).root.getAt (path p)) :=
    findPrefixFrom_eq p p _ hex
  have hsorted : ((build ws).findPrefix p).Pairwise (List.Lex (· < ·)) := by
    rw [heq]
    exact dfs_print_lex _ _ (labeled_getAt (build_labeled ws hws) (path p))
  refine ⟨fun x => ?_, hsorted, nodup_of_lex hsorted⟩
  rw [heq, mem_dfs_print]
  constructor
  · rintro ⟨q, hq, hx⟩
    rw [← getAt_append] at hq hx
    obtain ⟨hxs, hpq⟩ := (build_terminal ws hws _ x).mp ⟨hq, hx⟩
    exact ⟨hxs, (path_prefix_iff hp (hws x hxs)).mp ⟨q, hpq⟩⟩
  · rintro ⟨hxs, hpre⟩
    obtain ⟨q, hq⟩ := (path_prefix_iff hp (hws x hxs)).mpr hpre
    have := (build_terminal ws hws (path x) x).mpr ⟨hxs, rfl⟩
    rw [hq, getAt_append] at this
    exact ⟨q, this⟩

theorem findPrefix_build_witness :
    (∀ w ∈ ["cod".toList, "cat".toList, "ca".toList, "cats".toList, "dog".toList],
      lowercase w) ∧
    lowercase "ca".toList ∧
    ((build ["cod".toList, "cat".toList, "ca".toList, "cats".toList,
      "dog".toList]).root.getAt (path "ca".toList)).isNull = false ∧
    ((∀ x : List Char,
      x ∈ (build ["cod".toList, "cat".toList, "ca".toList, "cats".toList,
        "dog".toList]).findPrefix "ca".toList ↔
      (x ∈ ["cod".toList, "cat".toList, "ca".toList, "cats".toList, "dog".toList] ∧
        "ca".toList <+: x)) ∧
    ((build ["cod".toList, "cat".toList, "ca".toList, "cats".toList,
      "dog".toList]).findPrefix "ca".toList).Pairwise (List.Lex (· < ·)) ∧
    ((build ["cod".toList, "cat".toList, "ca".toList, "cats".toList,
      "dog".toList]).findPrefix "ca".toList).Nodup) ∧
    (build ["cod".toList, "cat".toList, "ca".toList, "cats".toList,
      "dog".toList]).findPrefix "ca".toList = ["ca".toList, "cat".toList, "cats".toList] :=
  ⟨by decide, by decide, by decide,
    findPrefix_build _ _ (by decide) (by decide) (by decide), by decide⟩

/-- C10 (the code departs from the claim): after `init`, `insert "abc"` and
`deleteWord "abc"` no word is stored (`search` is false for every key), yet
`findPrefix "a"` writes nothing at all: the walk finds the leftover node of
"a", so the message "Not found any key has prefix a" is not written. -/
theorem findPrefix_silent_on_leftover :
    goodOps [Op.insert "abc".toList, Op.deleteWord "abc".toList] ∧
    (∀ K : List Char,
      (runOps [Op.insert "abc".toList, Op.deleteWord "abc".toList]).search K = false) ∧
    (runOps [Op.insert "abc".toList, Op.deleteWord "abc".toList]).findPrefix "a".toList = [] := by
  refine ⟨by decide, fun K => ?_, by decide⟩
  show searchFrom K _ = false
  rw [searchFrom_eq]
  exact anyEnd_false _ (by decide) _

/-! ## Claims C12, C13, C14 and C18 -/

/-- C12: in a trie whose root exists, if some character of the key (over
'a'..'z') has no child where the walk from the root reaches it, `deleteWord`
writes the line "Not found key" and returns the trie unchanged. -/
theorem deleteWord_missing_child (t : Trie) (key : List Char)
    (hroot : t.root.isNull = false) (_hkey : lowercase key)
    (hmiss : ∃ (u : List Char) (c : Char) (v : List Char), key = u ++ c :: v ∧
      ((t.root.getAt (path u)).child (idx c)).isNull = true) :
    t.deleteWord key = (t, ["Not found ".toList ++ key]) := by
  obtain ⟨u, c, v, hsplit, hnull⟩ := hmiss
  refine deleteWord_of_missing t key hroot ?_
  have hp : path key = (path u ++ [idx c]) ++ path v := by
    rw [hsplit]; simp [path]
  rw [hp, getAt_append, getAt_snoc, isNull_eq_true_iff.mp hnull, getAt_null]
  rfl

theorem deleteWord_missing_child_witness :
    (build ["ab".toList, "x".toList]).root.isNull = false ∧ lowercase "acd".toList ∧
    (∃ (u : List Char) (c : Char) (v : List Char), "acd".toList = u ++ c :: v ∧
      (((build ["ab".toList, "x".toList]).root.getAt (path u)).child (idx c)).isNull = true) ∧
    (build ["ab".toList, "x".toList]).deleteWord "acd".toList =
      (build ["ab".toList, "x".toList], ["Not found ".toList ++ "acd".toList]) :=
  ⟨by decide, by decide, ⟨"a".toList, 'c', "d".toList, by decide, by decide⟩,
    deleteWord_missing_child _ _ (by decide) (by decide)
      ⟨"a".toList, 'c', "d".toList, by decide, by decide⟩⟩

/-- C13 (the code departs from the claim): in the trie holding only "abc" the
key "ab" is not a stored word (`search` is false), yet `deleteWord "ab"` writes
no line at all. -/
theorem deleteWord_silent_on_proper_prefix :
    (build ["abc".toList]).search "ab".toList = false ∧
    ((build ["abc".toList]).deleteWord "ab".toList).2 = [] := by
  decide

/-- C14 (the code departs from the claim): `init()` followed by `deleteWord ""`
leaves `root == nullptr`. -/
theorem deleteWord_empty_key_frees_root :
    (Trie.init Trie.declared).root.isNull = false ∧
    ((Trie.init Trie.declared).deleteWord []).1.root.isNull = true := by
  decide

/-- C18: for every node pointer, every array `cnt` of 26 `int`s, every index and
every `res`, after `dfs` returns `cnt` holds the values it held before the
call, and `res` is the old `res` followed by the matches (what the same call
appends to an empty list). -/
theorem dfs_restores (n : TrieNode) (cnt : Fin ALPHABET_SIZE → Int)
    (index : Fin ALPHABET_SIZE) (res : List (List Char)) (hint : ∀ i, isInt (cnt i)) :
    (dfs n cnt index res).1 = cnt ∧
      (dfs n cnt index res).2 = res ++ (dfs n cnt index []).2 := by
  rw [dfs_eq n cnt index res hint, dfs_eq n cnt index [] hint]
  exact ⟨rfl, by simp⟩

theorem dfs_restores_witness :
    (∀ i : Fin ALPHABET_SIZE, isInt ((fun j : Fin ALPHABET_SIZE =>
      if j = 2 then (-2147483648 : Int) else 1) i)) ∧
    ((dfs (build ["cat".toList, "act".toList]).root
        (fun j : Fin ALPHABET_SIZE => if j = 2 then (-2147483648 : Int) else 1) 0
        ["zoo".toList]).1 =
      (fun j : Fin ALPHABET_SIZE => if j = 2 then (-2147483648 : Int) else 1) ∧
    (dfs (build ["cat".toList, "act".toList]).root
        (fun j : Fin ALPHABET_SIZE => if j = 2 then (-2147483648 : Int) else 1) 0
        ["zoo".toList]).2 =
      ["zoo".toList] ++ (dfs (build ["cat".toList, "act".toList]).root
        (fun j : Fin ALPHABET_SIZE => if j = 2 then (-2147483648 : Int) else 1) 0 []).2) :=
  ⟨by decide, dfs_restores _ _ _ _ (by decide)⟩

/-! ## Emptying a slot -/

/-- Emptying the slot `p` leaves every slot that is not at or below `p` as it
was, as far as occupancy, flag and word are concerned. -/
theorem getAt_setAt_null_other (n : TrieNode) (p q : List (Fin ALPHABET_SIZE))
    (h : ¬ p <+: q) :
    ((n.setAt p null).getAt q).isNull = (n.getAt q).isNull ∧
    ((n.setAt p null).getAt q).wordOf = (n.getAt q).wordOf ∧
    ((n.setAt p null).getAt q).isEnd = (n.getAt q).isEnd := by
  induction p generalizing n q with
  | nil => exact absurd (List.nil_prefix) h
  | cons i p ih =>
    cases n with
    | null => simp [setAt]
    | node ch e w =>
      cases q with
      | nil => simp [setAt, getAt, isNull, wordOf, isEnd]
      | cons j q =>
        simp only [setAt, getAt, child]
        by_cases hj : j = i
        · subst hj
          rw [Function.update_same]
          exact ih (ch j) q (fun hp => h (by simpa using hp))
        · rw [Function.update_noteq hj]
          simp

theorem getAt_setAt_null_below (n : TrieNode) (p q : List (Fin ALPHABET_SIZE))
    (h : p <+: q) : (n.setAt p null).getAt q = null := by
  obtain ⟨s, hs⟩ := h
  rw [← hs]
  exact getAt_setAt_null_append n p s

/-- Emptying a slot makes no node terminal and changes no word of a node that
stays. -/
theorem isEnd_setAt_null (n : TrieNode) (p q : List (Fin ALPHABET_SIZE))
    (h : ((n.setAt p null).getAt q).isEnd = true) :
    (n.getAt q).isEnd = true ∧ ((n.setAt p null).getAt q).wordOf = (n.getAt q).wordOf := by
  by_cases hp : p <+: q
  · rw [getAt_setAt_null_below n p q hp] at h
    simp [isEnd] at h
  · have := getAt_setAt_null_other n p q hp
    rw [this.2.2] at h
    exact ⟨h, this.2.1⟩

/-- The method `deleteWord` makes no node terminal and changes no word of a
node that stays terminal. -/
theorem deleteWord_isEnd (t : Trie) (key : List Char) (hroot : t.root.isNull = false)
    (q : List (Fin ALPHABET_SIZE))
    (h : ((t.deleteWord key).1.root.getAt q).isEnd = true) :
    (t.root.getAt q).isEnd = true ∧
      ((t.deleteWord key).1.root.getAt q).wordOf = (t.root.getAt q).wordOf := by
  by_cases hpath : (t.root.getAt (path key)).isNull = false
  · rcases deleteWord_cases t key hpath with ⟨_, heq⟩ | ⟨_, heq | ⟨p1, _, _, heq⟩⟩
    · rw [heq] at h ⊢
      have := getAt_setAt_clearEnd t.root (path key) q
      simp only at h ⊢
      rw [this.2.2] at h
      by_cases hq : q = path key
      · rw [if_pos hq] at h; simp at h
      · rw [if_neg hq] at h; exact ⟨h, this.2.1⟩
    · rw [heq] at h ⊢
      exact isEnd_setAt_null _ _ _ h
    · rw [heq] at h ⊢
      simp only at h ⊢
      have h1 := isEnd_setAt_null _ _ _ h
      have h2 := isEnd_setAt_null _ _ _ h1.1
      exact ⟨h2.1, h1.2.trans h2.2⟩
  · rw [deleteWord_of_missing t key hroot (by simpa using hpath)] at h ⊢
    exact ⟨h, rfl⟩

/-! ## Words carried by terminal nodes -/

theorem letter_idx {c : Char} (hc : 'a'.toNat ≤ c.toNat ∧ c.toNat ≤ 'z'.toNat) :
    letter (idx c) = c :=
  idx_inj (letter_spec (idx c)).2 hc (letter_spec (idx c)).1

theorem map_letter_path {w : List Char} (hw : lowercase w) : (path w).map letter = w := by
  induction w with
  | nil => rfl
  | cons c w ih =>
    rw [lowercase_cons] at hw
    simp only [path, List.map_cons, List.cons.injEq]
    exact ⟨letter_idx hw.1, ih hw.2⟩

theorem labeled_insert {n : TrieNode} (hn : n.isNull = false) (h : labeled [] n)
    (word : List Char) (hword : lowercase word) : labeled [] (insertFrom word word n) := by
  intro q hq
  rw [insertFrom_isEnd word word n q hn] at hq
  rw [insertFrom_wordOf word word n q hn]
  by_cases hqw : q = path word
  · rw [if_pos hqw]
    exact ⟨hword, by simp [hqw]⟩
  · rw [if_neg hqw]
    simp only [hqw, decide_False, Bool.false_or] at hq
    exact h q hq

theorem labeled_deleteWord {t : Trie} (hroot : t.root.isNull = false)
    (h : labeled [] t.root) (key : List Char) : labeled [] (t.deleteWord key).1.root := by
  intro q hq
  have := deleteWord_isEnd t key hroot q hq
  rw [this.2]
  exact h q this.1

/-- In every trie reached by calls with non-empty arguments over 'a'..'z',
each terminal node carries a word over 'a'..'z' whose index sequence is the
path of the node. -/
theorem runOps_labeled (ops : List Op) (h : goodOps ops) : labeled [] (runOps ops).root := by
  induction ops using List.reverseRecOn with
  | nil =>
    intro q hq
    simp [runOps, Trie.init, getAt_newTrieNode_isEnd] at hq
  | append_singleton ops o ih =>
    obtain ⟨hops, _, hlow⟩ := goodOps_append h
    rw [runOps_append]
    cases o with
    | insert w => exact labeled_insert (runOps_root_isNull ops hops) (ih hops) w hlow
    | deleteWord k => exact labeled_deleteWord (runOps_root_isNull ops hops) (ih hops) k

/-! ## Claim C15 -/

/-- C15: in every trie reached from a freshly initialised one by `insert` and
`deleteWord` calls on non-empty words over 'a'..'z', the `word` field of every
terminal node is the string spelled by the letters on the path from the root
to that node. -/
theorem terminal_word_eq_path (ops : List Op) (q : List (Fin ALPHABET_SIZE))
    (hops : goodOps ops) (hend : ((runOps ops).root.getAt q).isEnd = true) :
    ((runOps ops).root.getAt q).wordOf = q.map letter := by
  have h := runOps_labeled ops hops q hend
  rw [List.nil_append] at h
  have hmap := map_letter_path h.1
  rw [h.2] at hmap
  exact hmap.symm

theorem terminal_word_eq_path_witness :
    goodOps [Op.insert "abc".toList, Op.insert "ab".toList, Op.deleteWord "abc".toList,
      Op.insert "xy".toList] ∧
    ((runOps [Op.insert "abc".toList, Op.insert "ab".toList, Op.deleteWord "abc".toList,
      Op.insert "xy".toList]).root.getAt [0, 1]).isEnd = true ∧
    ((runOps [Op.insert "abc".toList, Op.insert "ab".toList, Op.deleteWord "abc".toList,
      Op.insert "xy".toList]).root.getAt [0, 1]).wordOf = [0, 1].map letter :=
  ⟨by decide, by decide, terminal_word_eq_path _ _ (by decide) (by decide)⟩

/-! ## Occupied slots -/

theorem getAt_newTrieNode_isNull (q : List (Fin ALPHABET_SIZE)) :
    (newTrieNode.getAt q).isNull = false ↔ q = [] := by
  cases q with
  | nil => simp [getAt, newTrieNode, isNull]
  | cons i q => simp [getAt, newTrieNode, child, isNull]

/-- After `insert`, the occupied slots are those occupied before and those on
the path of the word. -/
theorem insertFrom_occupied (word : List Char) :
    ∀ (w : List Char) (n : TrieNode) (q : List (Fin ALPHABET_SIZE)), n.isNull = false →
      (((insertFrom word w n).getAt q).isNull = false ↔
        ((n.getAt q).isNull = false ∨ q <+: path w)) := by
  intro w
  induction w with
  | nil =>
    intro n q hn
    cases n with
    | null => simp [isNull] at hn
    | node ch e wd =>
      cases q with
      | nil => simp [insertFrom, getAt, isNull]
      | cons i q => simp [insertFrom, getAt, child, path]
  | cons c rest ih =>
    intro n q hn
    cases n with
    | null => simp [isNull] at hn
    | node ch e wd =>
      cases q with
      | nil => simp [insertFrom, getAt, isNull]
      | cons i q =>
        simp only [insertFrom, getAt, child, path, List.map_cons, List.cons_prefix_cons]
        by_cases hi : i = idx c
        · subst hi
          rw [Function.update_same]
          by_cases hc : (ch (idx c)).isNull = true
          · rw [if_pos hc, ih newTrieNode q rfl, getAt_newTrieNode_isNull,
              isNull_eq_true_iff.mp hc]
            simp only [getAt_null, isNull, true_and, path]
            constructor
            · rintro (h | h)
              · right; rw [h]; exact List.nil_prefix
              · right; exact h
            · rintro (h | h)
              · simp at h
              · right; exact h
          · rw [if_neg hc, ih _ q (by simpa using hc)]
            simp [path]
        · rw [Function.update_noteq hi]
          simp [hi]

/-- In a trie built by insertions, the occupied slots are the root and the
slots on the paths of the inserted words. -/
theorem build_occupied (ws : List (List Char)) (q : List (Fin ALPHABET_SIZE)) :
    ((build ws).root.getAt q).isNull = false ↔ (q = [] ∨ ∃ w ∈ ws, q <+: path w) := by
  induction ws using List.reverseRecOn with
  | nil => simp [build, Trie.init, getAt_newTrieNode_isNull]
  | append_singleton ws w ih =>
    rw [build_append]
    show ((insertFrom w w (build ws).root).getAt q).isNull = false ↔ _
    rw [insertFrom_occupied w w _ q (build_root_isNull ws), ih]
    simp only [List.mem_append, List.mem_singleton]
    constructor
    · rintro ((h | ⟨v, hv, hq⟩) | h)
      · exact Or.inl h
      · exact Or.inr ⟨v, Or.inl hv, hq⟩
      · exact Or.inr ⟨w, Or.inr rfl, h⟩
    · rintro (h | ⟨v, hv | hv, hq⟩)
      · exact Or.inl (Or.inl h)
      · exact Or.inl (Or.inr ⟨v, hv, hq⟩)
      · subst hv; exact Or.inr hq

theorem build_wordOf_nil (ws : List (List Char)) (q : List (Fin ALPHABET_SIZE))
    (h : ((build ws).root.getAt q).isEnd = false) :
    ((build ws).root.getAt q).wordOf = [] := by
  induction ws using List.reverseRecOn with
  | nil => simp [build, Trie.init, getAt_newTrieNode_wordOf]
  | append_singleton ws w ih =>
    rw [build_append] at h ⊢
    change ((insertFrom w w (build ws).root).getAt q).isEnd = false at h
    show ((insertFrom w w (build ws).root).getAt q).wordOf = []
    rw [insertFrom_isEnd w w _ q (build_root_isNull ws)] at h
    rw [insertFrom_wordOf w w _ q (build_root_isNull ws)]
    simp only [Bool.or_eq_false_iff, decide_eq_false_iff_not] at h
    rw [if_neg h.1]
    exact ih h.2

/-- Two pointers are equal when they agree, slot by slot, on occupancy, flag
and word. -/
theorem ext_getAt (a : TrieNode) :
    ∀ b : TrieNode,
      (∀ q, (a.getAt q).isNull = (b.getAt q).isNull ∧ (a.getAt q).isEnd = (b.getAt q).isEnd ∧
        (a.getAt q).wordOf = (b.getAt q).wordOf) → a = b := by
  induction a with
  | null =>
    intro b h
    have := (h []).1
    cases b with
    | null => rfl
    | node ch e w => simp [getAt, isNull] at this
  | node ch e w ih =>
    intro b h
    cases b with
    | null =>
      have := (h []).1
      simp [getAt, isNull] at this
    | node ch2 e2 w2 =>
      have h0 := h []
      simp only [getAt, isEnd, wordOf] at h0
      have hch : ch = ch2 := by
        funext i
        exact ih i (ch2 i) (fun q => h (i :: q))
      rw [hch, h0.2.1, h0.2.2]

theorem trie_eq_of_root {t1 t2 : Trie} (h : t1.root = t2.root) : t1 = t2 := by
  cases t1; cases t2; simp_all

/-- Two insertion sequences over 'a'..'z' with the same set of words build the
same trie. -/
theorem build_eq_of_same_set (ws1 ws2 : List (List Char))
    (h1 : ∀ w ∈ ws1, lowercase w) (h2 : ∀ w ∈ ws2, lowercase w)
    (hset : ∀ w, w ∈ ws1 ↔ w ∈ ws2) : build ws1 = build ws2 := by
  apply trie_eq_of_root
  apply ext_getAt
  intro q
  have hend : ((build ws1).root.getAt q).isEnd = ((build ws2).root.getAt q).isEnd := by
    rw [Bool.eq_iff_iff, build_isEnd, build_isEnd]
    exact ⟨fun ⟨w, hw, hq⟩ => ⟨w, (hset w).mp hw, hq⟩,
      fun ⟨w, hw, hq⟩ => ⟨w, (hset w).mpr hw, hq⟩⟩
  refine ⟨?_, hend, ?_⟩
  · have hocc : ((build ws1).root.getAt q).isNull = false ↔
        ((build ws2).root.getAt q).isNull = false := by
      rw [build_occupied, build_occupied]
      exact ⟨fun h => h.imp id (fun ⟨w, hw, hq⟩ => ⟨w, (hset w).mp hw, hq⟩),
        fun h => h.imp id (fun ⟨w, hw, hq⟩ => ⟨w, (hset w).mpr hw, hq⟩)⟩
    cases ha : ((build ws1).root.getAt q).isNull <;>
      cases hb : ((build ws2).root.getAt q).isNull <;> simp_all
  · cases he : ((build ws1).root.getAt q).isEnd with
    | false =>
      rw [build_wordOf_nil ws1 q he, build_wordOf_nil ws2 q (hend ▸ he)]
    | true =>
      have a1 := build_wordOf ws1 q he
      have a2 := build_wordOf ws2 q (hend ▸ he)
      exact path_inj (h1 _ a1.1) (h2 _ a2.1) (a1.2.trans a2.2.symm)

/-! ## Claims C19 and C20 -/

/-- C19: two sequences of words over 'a'..'z' that hold the same set of words
build, from a freshly initialised trie, the very same trie (same children,
flags and words in every node); in particular inserting a word a second time
changes nothing, and two inserts give the same trie in either order. -/
theorem build_depends_on_set (ws1 ws2 : List (List Char)) (u v : List Char)
    (h1 : ∀ w ∈ ws1, lowercase w) (h2 : ∀ w ∈ ws2, lowercase w)
    (hu : lowercase u) (hv : lowercase v) (hset : ∀ w, w ∈ ws1 ↔ w ∈ ws2) :
    build ws1 = build ws2 ∧
    ((build ws1).insert u).insert u = (build ws1).insert u ∧
    ((build ws1).insert u).insert v = ((build ws1).insert v).insert u := by
  refine ⟨build_eq_of_same_set ws1 ws2 h1 h2 hset, ?_, ?_⟩
  · rw [← build_append, ← build_append]
    refine build_eq_of_same_set _ _ ?_ ?_ ?_
    · intro w hw
      simp only [List.mem_append, List.mem_singleton] at hw
      rcases hw with (hw | hw) | hw
      · exact h1 w hw
      · rw [hw]; exact hu
      · rw [hw]; exact hu
    · intro w hw
      simp only [List.mem_append, List.mem_singleton] at hw
      rcases hw with hw | hw
      · exact h1 w hw
      · rw [hw]; exact hu
    · intro w
      simp only [List.mem_append, List.mem_singleton]
      tauto
  · rw [← build_append, ← build_append, ← build_append, ← build_append]
    refine build_eq_of_same_set _ _ ?_ ?_ ?_
    · intro w hw
      simp only [List.mem_append, List.mem_singleton] at hw
      rcases hw with (hw | hw) | hw
      · exact h1 w hw
      · rw [hw]; exact hu
      · rw [hw]; exact hv
    · intro w hw
      simp only [List.mem_append, List.mem_singleton] at hw
      rcases hw with (hw | hw) | hw
      · exact h1 w hw
      · rw [hw]; exact hv
      · rw [hw]; exact hu
    · intro w
      simp only [List.mem_append, List.mem_singleton]
      tauto

theorem build_depends_on_set_witness :
    (∀ w ∈ ["ab".toList, "a".toList, "ab".toList, "cd".toList], lowercase w) ∧
    (∀ w ∈ ["cd".toList, "ab".toList, "a".toList], lowercase w) ∧
    lowercase "ax".toList ∧ lowercase "c".toList ∧
    (∀ w, w ∈ ["ab".toList, "a".toList, "ab".toList, "cd".toList] ↔
      w ∈ ["cd".toList, "ab".toList, "a".toList]) ∧
    (build ["ab".toList, "a".toList, "ab".toList, "cd".toList] =
      build ["cd".toList, "ab".toList, "a".toList] ∧
    ((build ["ab".toList, "a".toList, "ab".toList, "cd".toList]).insert "ax".toList).insert
        "ax".toList =
      (build ["ab".toList, "a".toList, "ab".toList, "cd".toList]).insert "ax".toList ∧
    ((build ["ab".toList, "a".toList, "ab".toList, "cd".toList]).insert "ax".toList).insert
        "c".toList =
      ((build ["ab".toList, "a".toList, "ab".toList, "cd".toList]).insert "c".toList).insert
        "ax".toList) :=
  ⟨by decide, by decide, by decide, by decide, by intro w; simp; tauto,
    build_depends_on_set _ _ _ _ (by decide) (by decide) (by decide) (by decide)
      (by intro w; simp; tauto)⟩

/-- C20: in every trie reached from a freshly initialised one by `insert` and
`deleteWord` calls on non-empty words over 'a'..'z', a non-empty key `V` found
after `deleteWord W` (`W` non-empty, both over 'a'..'z') was found before it;
and in a trie built by insertions only, `deleteWord W` for a `W` that is not
stored leaves the answer of `search V` as it was. -/
theorem deleteWord_adds_no_word (ops : List Op) (ws : List (List Char)) (W V : List Char)
    (hops : goodOps ops) (hws : ∀ w ∈ ws, lowercase w)
    (hW : W ≠ []) (hWl : lowercase W) (_hV : V ≠ []) (_hVl : lowercase V) :
    (((runOps ops).deleteWord W).1.search V = true → (runOps ops).search V = true) ∧
    (W ∉ ws → ((build ws).deleteWord W).1.search V = (build ws).search V) := by
  constructor
  · intro h
    change searchFrom V _ = true at h
    show searchFrom V _ = true
    rw [searchFrom_eq] at h ⊢
    exact (deleteWord_isEnd _ W (runOps_root_isNull ops hops) _ h).1
  · intro hnot
    by_cases hpath : ((build ws).root.getAt (path W)).isNull = false
    · have hflag : ((build ws).root.getAt (path W)).isEnd = false := by
        cases he : ((build ws).root.getAt (path W)).isEnd with
        | false => rfl
        | true =>
          obtain ⟨w, hw, hp⟩ := (build_isEnd ws _).mp he
          exact absurd (path_inj (hws w hw) hWl hp ▸ hw) hnot
      have hpne : path W ≠ [] := by
        cases W with
        | nil => exact absurd rfl hW
        | cons c r => simp [path]
      obtain ⟨w, hw, s, hs⟩ := ((build_occupied ws _).mp hpath).resolve_left hpne
      have hcount : countChild ((build ws).root.getAt (path W)) > 0 := by
        cases s with
        | nil =>
          rw [List.append_nil] at hs
          exact absurd (path_inj (hws w hw) hWl hs.symm ▸ hw) hnot
        | cons i s1 =>
          have hend : ((build ws).root.getAt (path w)).isEnd = true :=
            (build_isEnd ws _).mpr ⟨w, hw, rfl⟩
          have hnn := isNull_of_isEnd hend
          have hsplit : path w = (path W ++ [i]) ++ s1 := by rw [← hs]; simp
          rw [hsplit] at hnn
          have hchild := isNull_of_getAt_append hnn
          rw [getAt_snoc] at hchild
          exact countChild_pos.mpr ⟨i, hchild⟩
      rcases deleteWord_cases (build ws) W hpath with ⟨_, heq⟩ | ⟨h0, _⟩
      · rw [heq]
        show searchFrom V _ = searchFrom V _
        rw [searchFrom_eq, searchFrom_eq, (getAt_setAt_clearEnd _ _ _).2.2]
        by_cases hq : path V = path W
        · rw [if_pos hq, hq, hflag]
        · rw [if_neg hq]
      · omega
    · rw [deleteWord_of_missing _ W (build_root_isNull ws) (by simpa using hpath)]

theorem deleteWord_adds_no_word_witness :
    goodOps [Op.insert "ab".toList, Op.insert "abc".toList, Op.insert "x".toList] ∧
    (∀ w ∈ ["abc".toList, "x".toList], lowercase w) ∧
    "ab".toList ≠ [] ∧ lowercase "ab".toList ∧ "abc".toList ≠ [] ∧ lowercase "abc".toList ∧
    ((((runOps [Op.insert "ab".toList, Op.insert "abc".toList,
        Op.insert "x".toList]).deleteWord "ab".toList).1.search "abc".toList = true →
      (runOps [Op.insert "ab".toList, Op.insert "abc".toList,
        Op.insert "x".toList]).search "abc".toList = true) ∧
    ("ab".toList ∉ ["abc".toList, "x".toList] →
      ((build ["abc".toList, "x".toList]).deleteWord "ab".toList).1.search "abc".toList =
        (build ["abc".toList, "x".toList]).search "abc".toList)) :=
  ⟨by decide, by decide, by decide, by decide, by decide, by decide,
    deleteWord_adds_no_word _ _ _ _ (by decide) (by decide) (by decide) (by decide)
      (by decide) (by decide)⟩

/-! ## The walk of `longestPrefix` -/

theorem longestPrefixFrom_acc :
    ∀ (key : List Char) (n : TrieNode) (acc : List Char),
      longestPrefixFrom key n acc = acc ++ longestPrefixFrom key n [] := by
  intro key
  induction key with
  | nil => intro n acc; simp [longestPrefixFrom]
  | cons c rest ih =>
    intro n acc
    simp only [longestPrefixFrom]
    by_cases hc : (n.child (idx c)).isNull = true
    · simp [hc]
    · rw [if_neg hc, if_neg hc, ih _ (acc ++ [c]), ih _ ([] ++ [c])]
      simp

theorem longestPrefixFrom_cons (c : Char) (rest : List Char) (n : TrieNode) :
    longestPrefixFrom (c :: rest) n [] =
      if (n.child (idx c)).isNull then []
      else c :: longestPrefixFrom rest (n.child (idx c)) [] := by
  simp only [longestPrefixFrom]
  by_cases hc : (n.child (idx c)).isNull = true
  · simp [hc]
  · rw [if_neg hc, if_neg hc, longestPrefixFrom_acc]
    simp

/-- The string accumulated by `longestPrefix` is a prefix of the key, its path
exists, and no longer prefix of the key has a path. -/
theorem longestPrefixFrom_spec :
    ∀ (key : List Char) (n : TrieNode),
      longestPrefixFrom key n [] <+: key ∧
      (n.isNull = false → (n.getAt (path (longestPrefixFrom key n []))).isNull = false) ∧
      (∀ m1 : List Char, m1 <+: key → (n.getAt (path m1)).isNull = false →
        m1.length ≤ (longestPrefixFrom key n []).length) := by
  intro key
  induction key with
  | nil =>
    intro n
    refine ⟨by simp [longestPrefixFrom], fun h => by simpa [longestPrefixFrom, path, getAt] using h,
      ?_⟩
    intro m1 hm1 _
    rw [List.prefix_nil] at hm1
    simp [hm1]
  | cons c rest ih =>
    intro n
    rw [longestPrefixFrom_cons]
    by_cases hc : (n.child (idx c)).isNull = true
    · rw [if_pos hc]
      refine ⟨List.nil_prefix, fun h => by simpa [path, getAt] using h, ?_⟩
      intro m1 hm1 hocc
      cases m1 with
      | nil => simp
      | cons d m2 =>
        rw [List.cons_prefix_cons] at hm1
        rw [hm1.1] at hocc
        simp only [path, List.map_cons, getAt] at hocc
        rw [isNull_eq_true_iff.mp hc, getAt_null] at hocc
        simp [isNull] at hocc
    · rw [if_neg hc]
      obtain ⟨ha, hb, hmax⟩ := ih (n.child (idx c))
      refine ⟨by rw [List.cons_prefix_cons]; exact ⟨rfl, ha⟩, fun _ => ?_, ?_⟩
      · simp only [path, List.map_cons, getAt]
        exact hb (by simpa using hc)
      · intro m1 hm1 hocc
        cases m1 with
        | nil => simp
        | cons d m2 =>
          rw [List.cons_prefix_cons] at hm1
          rw [hm1.1] at hocc
          simp only [path, List.map_cons, getAt] at hocc
          have := hmax m2 hm1.2 hocc
          simp only [List.length_cons]
          omega

theorem lowercase_of_initial {m key : List Char} (h : m <+: key) (hkey : lowercase key) :
    lowercase m := by
  obtain ⟨s, hs⟩ := h
  rw [← hs, lowercase_append] at hkey
  exact hkey.1

/-- In a trie built by inserting words over 'a'..'z', the path of a non-empty
word `m` over 'a'..'z' exists exactly when `m` starts an inserted word. -/
theorem build_occupied_word (ws : List (List Char)) (hws : ∀ w ∈ ws, lowercase w)
    {m : List Char} (hm : lowercase m) (hne : m ≠ []) :
    ((build ws).root.getAt (path m)).isNull = false ↔ ∃ w ∈ ws, m <+: w := by
  have hpne : path m ≠ [] := by
    cases m with
    | nil => exact absurd rfl hne
    | cons c r => simp [path]
  rw [build_occupied]
  constructor
  · intro h
    obtain ⟨w, hw, q, hq⟩ := h.resolve_left hpne
    exact ⟨w, hw, (path_prefix_iff hm (hws w hw)).mp ⟨q, hq.symm⟩⟩
  · rintro ⟨w, hw, hpre⟩
    obtain ⟨q, hq⟩ := (path_prefix_iff hm (hws w hw)).mpr hpre
    exact Or.inr ⟨w, hw, q, hq.symm⟩

/-! ## Claim C11 -/

/-- C11: in a trie built by inserting words over 'a'..'z', for a key over
'a'..'z', the string `longestPrefix` reports is the longest prefix of the key
that starts an inserted word: it is a prefix of the key, no prefix of the key
that starts an inserted word is longer, and it starts an inserted word itself
(with no word inserted it is the empty string); the walk does not stop at
terminal nodes, so it need not be an inserted word.  It is empty exactly when
the key is empty or no inserted word begins with the first character of the
key. -/
theorem longestPrefix_build (ws : List (List Char)) (key : List Char)
    (hws : ∀ w ∈ ws, lowercase w) (hkey : lowercase key) :
    (build ws).longestPrefix key =
      ["The longest prefix of ".toList ++ key ++ " is ".toList ++
        longestPrefixFrom key (build ws).root []] ∧
    longestPrefixFrom key (build ws).root [] <+: key ∧
    (∀ m1 : List Char, m1 <+: key → (∃ w ∈ ws, m1 <+: w) →
      m1.length ≤ (longestPrefixFrom key (build ws).root []).length) ∧
    (ws ≠ [] → ∃ w ∈ ws, longestPrefixFrom key (build ws).root [] <+: w) ∧
    (longestPrefixFrom key (build ws).root [] = [] ↔
      (key = [] ∨ ¬ ∃ w ∈ ws, key.take 1 <+: w)) := by
  obtain ⟨hpre, hocc, hmax⟩ := longestPrefixFrom_spec key (build ws).root
  have hmlow := lowercase_of_initial hpre hkey
  have hstart : longestPrefixFrom key (build ws).root [] ≠ [] →
      ∃ w ∈ ws, longestPrefixFrom key (build ws).root [] <+: w := fun hne =>
    (build_occupied_word ws hws hmlow hne).mp (hocc (build_root_isNull ws))
  have hlong : ∀ m1 : List Char, m1 <+: key → (∃ w ∈ ws, m1 <+: w) →
      m1.length ≤ (longestPrefixFrom key (build ws).root []).length := by
    intro m1 hm1 hw
    cases hm : m1 with
    | nil => simp
    | cons d m2 =>
      rw [← hm]
      refine hmax m1 hm1 ?_
      exact (build_occupied_word ws hws (lowercase_of_initial hm1 hkey)
        (by rw [hm]; simp)).mpr hw
  refine ⟨rfl, hpre, hlong, ?_, ?_⟩
  · intro hne
    by_cases hm : longestPrefixFrom key (build ws).root [] = []
    · rw [hm]
      cases ws with
      | nil => exact absurd rfl hne
      | cons w ws1 => exact ⟨w, List.mem_cons_self _ _, List.nil_prefix⟩
    · exact hstart hm
  · cases key with
    | nil => simp [longestPrefixFrom]
    | cons c rest =>
      simp only [List.take_succ_cons, List.take_zero, false_or, reduceCtorEq]
      constructor
      · intro hm hw
        have := hlong [c] (by simp) hw
        rw [hm] at this
        simp at this
      · intro hno
        by_contra hm
        obtain ⟨w, hw, hpw⟩ := hstart hm
        apply hno
        refine ⟨w, hw, ?_⟩
        cases hl : longestPrefixFrom (c :: rest) (build ws).root [] with
        | nil => exact absurd hl hm
        | cons d m2 =>
          rw [hl] at hpre hpw
          rw [List.cons_prefix_cons] at hpre
          obtain ⟨s, hs⟩ := hpw
          exact ⟨m2 ++ s, by rw [← hs, hpre.1]; simp⟩

theorem longestPrefix_build_witness :
    (∀ w ∈ ["cat".toList, "cart".toList, "dog".toList], lowercase w) ∧
    lowercase "cab".toList ∧
    ((build ["cat".toList, "cart".toList, "dog".toList]).longestPrefix "cab".toList =
      ["The longest prefix of ".toList ++ "cab".toList ++ " is ".toList ++
        longestPrefixFrom "cab".toList
          (build ["cat".toList, "cart".toList, "dog".toList]).root []] ∧
    longestPrefixFrom "cab".toList
      (build ["cat".toList, "cart".toList, "dog".toList]).root [] <+: "cab".toList ∧
    (∀ m1 : List Char, m1 <+: "cab".toList →
      (∃ w ∈ ["cat".toList, "cart".toList, "dog".toList], m1 <+: w) →
      m1.length ≤ (longestPrefixFrom "cab".toList
        (build ["cat".toList, "cart".toList, "dog".toList]).root []).length) ∧
    (["cat".toList, "cart".toList, "dog".toList] ≠ [] →
      ∃ w ∈ ["cat".toList, "cart".toList, "dog".toList],
        longestPrefixFrom "cab".toList
          (build ["cat".toList, "cart".toList, "dog".toList]).root [] <+: w) ∧
    (longestPrefixFrom "cab".toList
        (build ["cat".toList, "cart".toList, "dog".toList]).root [] = [] ↔
      ("cab".toList = [] ∨
        ¬ ∃ w ∈ ["cat".toList, "cart".toList, "dog".toList], "cab".toList.take 1 <+: w))) ∧
    longestPrefixFrom "cab".toList
      (build ["cat".toList, "cart".toList, "dog".toList]).root [] = "ca".toList :=
  ⟨by decide, by decide, longestPrefix_build _ _ (by decide) (by decide), by decide⟩

/-! ## Counting nodes -/

theorem sum_map_update (g : Fin ALPHABET_SIZE → Nat) (i : Fin ALPHABET_SIZE) (v : Nat) :
    ∀ l : List (Fin ALPHABET_SIZE), l.Nodup →
      (i ∈ l → (l.map (Function.update g i v)).sum + g i = (l.map g).sum + v) ∧
      (i ∉ l → (l.map (Function.update g i v)).sum = (l.map g).sum) := by
  intro l
  induction l with
  | nil => intro _; simp
  | cons a l ih =>
    intro hnd
    rw [List.nodup_cons] at hnd
    obtain ⟨ihin, ihout⟩ := ih hnd.2
    simp only [List.map_cons, List.sum_cons, List.mem_cons, not_or]
    constructor
    · rintro (hia | hil)
      · subst hia
        rw [Function.update_same, ihout hnd.1]
        omega
      · have hne : a ≠ i := fun h => hnd.1 (h ▸ hil)
        rw [Function.update_noteq hne]
        have := ihin hil
        omega
    · rintro ⟨hia, hil⟩
      rw [Function.update_noteq (Ne.symm hia), ihout hil]

/-- Replacing one child changes the node count by the difference of the two
subtrees. -/
theorem size_update (ch : Fin ALPHABET_SIZE → TrieNode) (e : Bool) (w : List Char)
    (i : Fin ALPHABET_SIZE) (x : TrieNode) :
    size (node (Function.update ch i x) e w) + size (ch i) = size (node ch e w) + size x := by
  have hfun : (fun j => size (Function.update ch i x j)) =
      Function.update (fun j => size (ch j)) i (size x) := by
    funext j
    by_cases hj : j = i
    · subst hj; simp
    · simp [Function.update_noteq hj]
  simp only [size]
  rw [hfun]
  have := (sum_map_update (fun j => size (ch j)) i (size x) _
    (List.nodup_finRange ALPHABET_SIZE)).1 (List.mem_finRange i)
  omega

theorem size_newTrieNode : size newTrieNode = 1 := by decide

theorem longestPrefixFrom_newTrieNode (key : List Char) :
    longestPrefixFrom key newTrieNode [] = [] := by
  cases key with
  | nil => rfl
  | cons c rest => simp [longestPrefixFrom, newTrieNode, child, isNull]

/-- The loop of `insert` adds one node for every character of the word beyond
the prefix whose path was already there. -/
theorem size_insertFrom (word : List Char) :
    ∀ (w : List Char) (n : TrieNode), n.isNull = false →
      size (insertFrom word w n) + (longestPrefixFrom w n []).length = size n + w.length := by
  intro w
  induction w with
  | nil =>
    intro n hn
    cases n with
    | null => simp [isNull] at hn
    | node ch e wd => simp [insertFrom, longestPrefixFrom, size]
  | cons c rest ih =>
    intro n hn
    cases n with
    | null => simp [isNull] at hn
    | node ch e wd =>
      rw [longestPrefixFrom_cons]
      simp only [insertFrom, child]
      by_cases hc : (ch (idx c)).isNull = true
      · rw [if_pos hc, if_pos hc]
        have h1 := size_update ch e wd (idx c) (insertFrom word rest newTrieNode)
        have h2 := ih newTrieNode rfl
        rw [longestPrefixFrom_newTrieNode, size_newTrieNode] at h2
        rw [isNull_eq_true_iff.mp hc] at h1
        simp only [size, List.length_nil, List.length_cons] at h1 h2 ⊢
        omega
      · rw [if_neg hc, if_neg hc]
        have h1 := size_update ch e wd (idx c) (insertFrom word rest (ch (idx c)))
        have h2 := ih (ch (idx c)) (by simpa using hc)
        simp only [List.length_cons] at h1 h2 ⊢
        omega

theorem longestPrefixFrom_of_path (key : List Char) (n : TrieNode)
    (h : (n.getAt (path key)).isNull = false) : longestPrefixFrom key n [] = key := by
  obtain ⟨hpre, _, hmax⟩ := longestPrefixFrom_spec key n
  exact hpre.eq_of_length_le (hmax key (List.prefix_refl key) h)

/-! ## Claim C16 -/

/-- C16: in a trie whose root exists, `insert W` (`W` over 'a'..'z') adds
exactly `len(W) - len(m)` nodes, `m` being the string `longestPrefix W` works
out beforehand (the longest prefix of `W` whose path exists); this number is at
most `len(W)`, it is 0 when the whole path of `W` exists, and every slot that
was occupied stays occupied. -/
theorem insert_allocates (t : Trie) (W : List Char)
    (hroot : t.root.isNull = false) (_hW : lowercase W) :
    size (t.insert W).root =
      size t.root + (W.length - (longestPrefixFrom W t.root []).length) ∧
    W.length - (longestPrefixFrom W t.root []).length ≤ W.length ∧
    ((t.root.getAt (path W)).isNull = false → size (t.insert W).root = size t.root) ∧
    (∀ q, (t.root.getAt q).isNull = false → ((t.insert W).root.getAt q).isNull = false) := by
  have hsz := size_insertFrom W W t.root hroot
  have hle : (longestPrefixFrom W t.root []).length ≤ W.length :=
    (longestPrefixFrom_spec W t.root).1.length_le
  refine ⟨?_, Nat.sub_le _ _, ?_, ?_⟩
  · show size (insertFrom W W t.root) = _
    omega
  · intro hpath
    have hm := longestPrefixFrom_of_path W t.root hpath
    rw [hm] at hsz
    show size (insertFrom W W t.root) = _
    omega
  · intro q hq
    show ((insertFrom W W t.root).getAt q).isNull = false
    exact (insertFrom_occupied W W t.root q hroot).mpr (Or.inl hq)

theorem insert_allocates_witness :
    (build ["cat".toList, "dog".toList]).root.isNull = false ∧ lowercase "cart".toList ∧
    (size ((build ["cat".toList, "dog".toList]).insert "cart".toList).root =
      size (build ["cat".toList, "dog".toList]).root +
        ("cart".toList.length -
          (longestPrefixFrom "cart".toList (build ["cat".toList, "dog".toList]).root []).length) ∧
    "cart".toList.length -
        (longestPrefixFrom "cart".toList (build ["cat".toList, "dog".toList]).root []).length ≤
      "cart".toList.length ∧
    (((build ["cat".toList, "dog".toList]).root.getAt (path "cart".toList)).isNull = false →
      size ((build ["cat".toList, "dog".toList]).insert "cart".toList).root =
        size (build ["cat".toList, "dog".toList]).root) ∧
    (∀ q, ((build ["cat".toList, "dog".toList]).root.getAt q).isNull = false →
      (((build ["cat".toList, "dog".toList]).insert "cart".toList).root.getAt q).isNull =
        false)) ∧
    size (build ["cat".toList, "dog".toList]).root = 7 ∧
    size ((build ["cat".toList, "dog".toList]).insert "cart".toList).root = 9 :=
  ⟨by decide, by decide, insert_allocates _ _ (by decide) (by decide), by decide, by decide⟩

/-! ## The slot recorded by `deleteWord` -/

theorem removedAt_setAt (n : TrieNode) (p : List (Fin ALPHABET_SIZE)) :
    removedAt n (n.setAt p null) p := by
  intro q
  refine ⟨fun h => ?_, fun h => ?_⟩
  · rw [getAt_setAt_null_below n p q h]; rfl
  · have := getAt_setAt_null_other n p q h
    exact ⟨this.1, this.2.2, this.2.1⟩

theorem setAt_setAt_above (n : TrieNode) (p s : List (Fin ALPHABET_SIZE)) (v w : TrieNode) :
    (n.setAt (p ++ s) v).setAt p w = n.setAt p w := by
  induction p generalizing n with
  | nil => simp [setAt]
  | cons i p ih =>
    cases n with
    | null => simp [setAt]
    | node ch e wd =>
      have := ih (ch i)
      simp only [List.cons_append, setAt, Function.update_same, Function.update_idem]
      exact congrArg (fun x => node (Function.update ch i x) e wd) this

/-- When the whole path of `key` exists below `cur`, the final `parent` is the
slot of the deepest node of that path (strictly below `cur`) whose parent has
more than one child and which has exactly one child; it is the initial
`parent` when there is no such node. -/
theorem deleteWalk_parent (root : TrieNode) :
    ∀ (key : List Char) (cur : List (Fin ALPHABET_SIZE))
      (parent : Option (List (Fin ALPHABET_SIZE))),
      (root.getAt (cur ++ path key)).isNull = false →
      ∃ parent1, deleteWalk root key cur parent = some (cur ++ path key, parent1) ∧
        ((∃ k, (1 ≤ k ∧ k ≤ (path key).length ∧
              countChild (root.getAt (cur ++ (path key).take (k - 1))) > 1 ∧
              countChild (root.getAt (cur ++ (path key).take k)) = 1) ∧
            (∀ k1, (1 ≤ k1 ∧ k1 ≤ (path key).length ∧
              countChild (root.getAt (cur ++ (path key).take (k1 - 1))) > 1 ∧
              countChild (root.getAt (cur ++ (path key).take k1)) = 1) → k1 ≤ k) ∧
            parent1 = some (cur ++ (path key).take k)) ∨
          ((∀ k, ¬ (1 ≤ k ∧ k ≤ (path key).length ∧
              countChild (root.getAt (cur ++ (path key).take (k - 1))) > 1 ∧
              countChild (root.getAt (cur ++ (path key).take k)) = 1)) ∧
            parent1 = parent)) := by
  intro key
  induction key with
  | nil =>
    intro cur parent _
    refine ⟨parent, by simp [deleteWalk, path], Or.inr ⟨?_, rfl⟩⟩
    rintro k ⟨h1, h2, _⟩
    simp [path] at h2
    omega
  | cons c rest ih =>
    intro cur parent h
    have hsplit : cur ++ path (c :: rest) = (cur ++ [idx c]) ++ path rest := by
      simp [path]
    have hstep : ∀ k, 1 ≤ k →
        cur ++ (path (c :: rest)).take k = (cur ++ [idx c]) ++ (path rest).take (k - 1) := by
      intro k hk
      obtain ⟨j, rfl⟩ : ∃ j, k = j + 1 := ⟨k - 1, by omega⟩
      simp [path]
    have h0 : cur ++ (path (c :: rest)).take 0 = cur := by simp
    have h1 : cur ++ (path (c :: rest)).take 1 = cur ++ [idx c] := by simp [path]
    rw [hsplit] at h
    have hchild : ((root.getAt cur).child (idx c)).isNull = false := by
      have := isNull_of_getAt_append h
      rwa [getAt_snoc] at this
    obtain ⟨parent1, hwalk, hpar⟩ := ih (cur ++ [idx c])
      (if countChild (root.getAt cur) > 1 ∧
          countChild ((root.getAt cur).child (idx c)) = 1 then
        some (cur ++ [idx c]) else parent) h
    refine ⟨parent1, ?_, ?_⟩
    · simp only [deleteWalk, hchild, Bool.false_eq_true, if_false]
      rw [hwalk, hsplit]
    · have hlen : (path (c :: rest)).length = (path rest).length + 1 := by simp [path]
      rcases hpar with ⟨k, hk, hmax, hp1⟩ | ⟨hnone, hp1⟩
      · left
        refine ⟨k + 1, ⟨by omega, by omega, ?_, ?_⟩, ?_, ?_⟩
        · rw [hstep (k + 1 - 1) (by omega)]
          simpa using hk.2.2.1
        · rw [hstep (k + 1) (by omega)]
          simpa using hk.2.2.2
        · rintro k1 ⟨a1, a2, a3, a4⟩
          by_cases hk1 : k1 = 1
          · omega
          · have := hmax (k1 - 1) ⟨by omega, by omega, ?_, ?_⟩
            · omega
            · rw [hstep (k1 - 1) (by omega)] at a3
              exact a3
            · rw [hstep k1 a1] at a4
              exact a4
        · rw [hp1, hstep (k + 1) (by omega)]
          simp
      · by_cases hcond : countChild (root.getAt cur) > 1 ∧
            countChild ((root.getAt cur).child (idx c)) = 1
        · left
          rw [if_pos hcond] at hp1
          refine ⟨1, ⟨le_refl 1, by omega, ?_, ?_⟩, ?_, ?_⟩
          · rw [show (1 : Nat) - 1 = 0 from rfl, h0]; exact hcond.1
          · rw [h1, getAt_snoc]; exact hcond.2
          · rintro k1 ⟨a1, a2, a3, a4⟩
            by_contra hgt
            refine hnone (k1 - 1) ⟨by omega, by omega, ?_, ?_⟩
            · rw [hstep (k1 - 1) (by omega)] at a3
              exact a3
            · rw [hstep k1 a1] at a4
              exact a4
          · rw [hp1, h1]
        · right
          rw [if_neg hcond] at hp1
          refine ⟨?_, hp1⟩
          rintro k ⟨a1, a2, a3, a4⟩
          by_cases hk1 : k = 1
          · subst hk1
            rw [show (1 : Nat) - 1 = 0 from rfl, h0] at a3
            rw [h1, getAt_snoc] at a4
            exact hcond ⟨a3, a4⟩
          · refine hnone (k - 1) ⟨by omega, by omega, ?_, ?_⟩
            · rw [hstep (k - 1) (by omega)] at a3
              exact a3
            · rw [hstep k a1] at a4
              exact a4

/-- In the leaf case with a recorded `parent` slot `p` (a prefix of the path of
the key whose node has a child), `deleteWord` empties exactly the slot `p`. -/
theorem deleteWord_leaf_some (t : Trie) (key : List Char) (k : Nat)
    (hpath : (t.root.getAt (path key)).isNull = false)
    (hleaf : countChild (t.root.getAt (path key)) = 0)
    (hone : countChild (t.root.getAt ((path key).take k)) = 1)
    (hwalk : deleteWalk t.root key [] none = some (path key, some ((path key).take k))) :
    (t.deleteWord key).1.root = t.root.setAt ((path key).take k) null := by
  have hsplit : (path key).take k ++ (path key).drop k = path key := List.take_append_drop _ _
  have hnot : ¬ path key <+: (path key).take k := by
    intro hpre
    have heq : (path key).take k = path key :=
      (List.take_prefix k (path key)).eq_of_length_le hpre.length_le
    rw [heq, hleaf] at hone
    exact absurd hone (by decide)
  have hp : (t.root.getAt ((path key).take k)).isNull = false := by
    rw [← hsplit] at hpath
    exact isNull_of_getAt_append hpath
  have hnn : (((t.root.setAt (path key) null).getAt ((path key).take k))).isNull = false := by
    rw [(getAt_setAt_null_other t.root _ _ hnot).1]
    exact hp
  have hc : ¬ countChild (t.root.getAt (path key)) > 0 := by omega
  simp only [Trie.deleteWord, hwalk, if_neg hc, hnn, Bool.false_eq_true, if_false, clear]
  have hset := setAt_setAt_above t.root ((path key).take k) ((path key).drop k) null null
  rw [hsplit] at hset
  exact hset

theorem deleteWord_leaf_none (t : Trie) (key : List Char)
    (hleaf : countChild (t.root.getAt (path key)) = 0)
    (hwalk : deleteWalk t.root key [] none = some (path key, none)) :
    (t.deleteWord key).1.root = t.root.setAt (path key) null := by
  have hc : ¬ countChild (t.root.getAt (path key)) > 0 := by omega
  simp only [Trie.deleteWord, hwalk, if_neg hc]

/-! ## Claim C17 -/

/-- C17: when the path of the key (over 'a'..'z') exists and its last node has
no children, let `k` be the greatest depth at which the node of the path is
not the root, has a parent with more than one child and has exactly one child
(counts taken before the call).  If there is such a `k`, `deleteWord` empties
the slot of that node, which removes the whole subtree below it and changes
nothing else; if there is none, it empties the slot of the last node of the
path and changes nothing else. -/
theorem deleteWord_leaf_case (t : Trie) (key : List Char) (_hkey : lowercase key)
    (hpath : (t.root.getAt (path key)).isNull = false)
    (hleaf : countChild (t.root.getAt (path key)) = 0) :
    (∀ k, chainStart t.root (path key) k →
      (∀ k1, chainStart t.root (path key) k1 → k1 ≤ k) →
        (t.deleteWord key).1.root = t.root.setAt ((path key).take k) null ∧
        removedAt t.root (t.deleteWord key).1.root ((path key).take k)) ∧
    ((∀ k, ¬ chainStart t.root (path key) k) →
      (t.deleteWord key).1.root = t.root.setAt (path key) null ∧
      removedAt t.root (t.deleteWord key).1.root (path key)) := by
  obtain ⟨parent1, hwalk, hpar⟩ := deleteWalk_parent t.root key [] none (by simpa using hpath)
  simp only [List.nil_append] at hwalk hpar
  constructor
  · intro k0 hk0 hmax0
    rcases hpar with ⟨k, hk, hmax, hp1⟩ | ⟨hnone, _⟩
    · have hkk : k0 = k := Nat.le_antisymm (hmax k0 hk0) (hmax0 k hk)
      subst hkk
      subst hp1
      have heq := deleteWord_leaf_some t key k0 hpath hleaf hk.2.2.2 hwalk
      rw [heq]
      exact ⟨rfl, removedAt_setAt _ _⟩
    · exact absurd hk0 (hnone k0)
  · intro hno
    rcases hpar with ⟨k, hk, _, _⟩ | ⟨_, hp1⟩
    · exact absurd hk (hno k)
    · subst hp1
      have heq := deleteWord_leaf_none t key hleaf hwalk
      rw [heq]
      exact ⟨rfl, removedAt_setAt _ _⟩

theorem deleteWord_leaf_case_witness :
    lowercase "abc".toList ∧
    ((build ["abc".toList, "abd".toList, "x".toList]).root.getAt
      (path "abc".toList)).isNull = false ∧
    countChild ((build ["abc".toList, "abd".toList, "x".toList]).root.getAt
      (path "abc".toList)) = 0 ∧
    chainStart (build ["abc".toList, "abd".toList, "x".toList]).root (path "abc".toList) 1 ∧
    ((∀ k, chainStart (build ["abc".toList, "abd".toList, "x".toList]).root
        (path "abc".toList) k →
      (∀ k1, chainStart (build ["abc".toList, "abd".toList, "x".toList]).root
        (path "abc".toList) k1 → k1 ≤ k) →
        ((build ["abc".toList, "abd".toList, "x".toList]).deleteWord "abc".toList).1.root =
          (build ["abc".toList, "abd".toList, "x".toList]).root.setAt
            ((path "abc".toList).take k) null ∧
        removedAt (build ["abc".toList, "abd".toList, "x".toList]).root
          ((build ["abc".toList, "abd".toList, "x".toList]).deleteWord "abc".toList).1.root
          ((path "abc".toList).take k)) ∧
    ((∀ k, ¬ chainStart (build ["abc".toList, "abd".toList, "x".toList]).root
        (path "abc".toList) k) →
      ((build ["abc".toList, "abd".toList, "x".toList]).deleteWord "abc".toList).1.root =
        (build ["abc".toList, "abd".toList, "x".toList]).root.setAt (path "abc".toList) null ∧
      removedAt (build ["abc".toList, "abd".toList, "x".toList]).root
        ((build ["abc".toList, "abd".toList, "x".toList]).deleteWord "abc".toList).1.root
        (path "abc".toList))) :=
  ⟨by decide, by decide, by decide, by decide,
    deleteWord_leaf_case _ _ (by decide) (by decide) (by decide)⟩

end TrieProject
